import Mathlib

/-!
Verification development for the tagmv move-planning engine
(`src/sorting.rs`): filename sanitization, destination computation,
batch conflict resolution, and the move primitive with its
copy-verify-delete fallback.  Strings are modelled as Lean `String`
(lists of Unicode scalar values, matching Rust `char` iteration),
paths as absolute-flag plus component lists, and the filesystem as an
association list from paths to file sizes.
-/

namespace Tagmv

/-! Character classes, mirroring the Rust `char` methods used by
`sanitize`: `is_control` (Unicode Cc), `is_whitespace` (White_Space
property, used by `split_whitespace`), and ASCII case folding (used by
`eq_ignore_ascii_case`). -/

def isControlChar (c : Char) : Bool :=
  c.toNat ≤ 0x1f || (0x7f ≤ c.toNat && c.toNat ≤ 0x9f)

def isRustWhitespace (c : Char) : Bool :=
  c.toNat = 0x09 || c.toNat = 0x0a || c.toNat = 0x0b || c.toNat = 0x0c ||
  c.toNat = 0x0d || c.toNat = 0x20 || c.toNat = 0x85 || c.toNat = 0xa0 ||
  c.toNat = 0x1680 || (0x2000 ≤ c.toNat && c.toNat ≤ 0x200a) ||
  c.toNat = 0x2028 || c.toNat = 0x2029 || c.toNat = 0x202f ||
  c.toNat = 0x205f || c.toNat = 0x3000

/-- Characters that `sanitize` deletes outright (first match arm group
`':' | '*' | '?' | '"' | '<' | '>' | '|'`). -/
def deletedChar (c : Char) : Bool := c ∈ [':', '*', '?', '\"', '<', '>', '|']

/-- First pass of `sanitize`: map `/` and `\` to `-`, drop the deleted
characters and control characters, keep everything else. -/
def pass1 : List Char → List Char
  | [] => []
  | c :: cs =>
    if c = '/' ∨ c = '\\' then '-' :: pass1 cs
    else if deletedChar c then pass1 cs
    else if isControlChar c then pass1 cs
    else c :: pass1 cs

/-- Helper for `split_whitespace`: walk the characters keeping the
current (possibly empty) pending word. -/
def splitWsAux : List Char → List Char → List (List Char)
  | [], acc => if acc = [] then [] else [acc]
  | c :: cs, acc =>
    if isRustWhitespace c then
      if acc = [] then splitWsAux cs [] else acc :: splitWsAux cs []
    else splitWsAux cs (acc ++ [c])

/-- Rust `str::split_whitespace`: maximal runs of non-whitespace
characters, empty words dropped. -/
def splitWhitespaceL (cs : List Char) : List (List Char) := splitWsAux cs []

/-- Rust `Vec::join(" ")` on character-list words. -/
def joinSpace : List (List Char) → List Char
  | [] => []
  | w :: ws =>
    match ws with
    | [] => w
    | _ :: _ => w ++ ' ' :: joinSpace ws

/-- Whitespace collapse step of `sanitize`:
`out.split_whitespace().collect::<Vec<_>>().join(" ")`. -/
def collapse (cs : List Char) : List Char := joinSpace (splitWhitespaceL cs)

/-- The characters trimmed from both ends by `sanitize`
(`trim_matches(|c| c == '.' || c == ' ')`). -/
def isTrimCh (c : Char) : Bool := c = '.' || c = ' '

/-- Trim step of `sanitize`: strip `.` and space characters from both
ends of the collapsed string. -/
def trimDS (cs : List Char) : List Char :=
  List.rdropWhile isTrimCh (List.dropWhile isTrimCh cs)

/-- Rust ASCII lowercasing of a single char (`to_ascii_lowercase`). -/
def asciiLower (c : Char) : Char :=
  if 0x41 ≤ c.toNat && c.toNat ≤ 0x5a then Char.ofNat (c.toNat + 0x20) else c

/-- Rust `str::eq_ignore_ascii_case`. -/
def eqIgnoreAsciiCase (a b : String) : Bool :=
  a.data.map asciiLower = b.data.map asciiLower

/-- Windows/FAT32 reserved device names (`RESERVED_NAMES`). -/
def RESERVED_NAMES : List String :=
  ["CON", "PRN", "AUX", "NUL", "COM1", "COM2", "COM3", "COM4", "COM5",
   "COM6", "COM7", "COM8", "COM9", "LPT1", "LPT2", "LPT3", "LPT4",
   "LPT5", "LPT6", "LPT7", "LPT8", "LPT9"]

/-- The reserved-name guard of `sanitize`:
`RESERVED_NAMES.iter().any(|r| r.eq_ignore_ascii_case(&trimmed))`. -/
def isReserved (t : String) : Bool :=
  RESERVED_NAMES.any fun r => eqIgnoreAsciiCase r t

/-- The cleaned string of `sanitize` before the emptiness and
reserved-name checks: replace/delete characters, collapse whitespace,
trim dots and spaces. -/
def cleaned (s : String) : List Char := trimDS (collapse (pass1 s.data))

/-- The `sanitize` function of `src/sorting.rs`. -/
def sanitize (s : String) : String :=
  let trimmed := cleaned s
  if trimmed = [] then "Unknown"
  else if isReserved (String.mk trimmed) then String.mk ('_' :: trimmed)
  else String.mk trimmed

example : sanitize "Hello World" = "Hello World" := by decide
example : sanitize "AC/DC" = "AC-DC" := by decide
example : sanitize "Back\\Slash" = "Back-Slash" := by decide
example : sanitize "What: is *this?" = "What is this" := by decide
example : sanitize "a\"b<c>d|e" = "abcde" := by decide
example : sanitize "  too   many   spaces  " = "too many spaces" := by decide
example : sanitize "...leading" = "leading" := by decide
example : sanitize "trailing..." = "trailing" := by decide
example : sanitize "..both.." = "both" := by decide
example : sanitize "" = "Unknown" := by decide
example : sanitize "***" = "Unknown" := by decide
example : sanitize "..." = "Unknown" := by decide
example : sanitize "   " = "Unknown" := by decide
example : sanitize "CON" = "_CON" := by decide
example : sanitize "con" = "_con" := by decide
example : sanitize "COM1" = "_COM1" := by decide
example : sanitize "LPT9" = "_LPT9" := by decide
example : sanitize "CONNECT" = "CONNECT" := by decide
example : sanitize "CONSOLE" = "CONSOLE" := by decide
example : sanitize "Chlär" = "Chlär" := by decide

/-! Path model.  A path is an absolute-flag plus a list of normal
components.  `fileName`, `fileStem`, `extension`, `parent` and `join`
mirror the corresponding `std::path::Path` methods on such paths
(components are assumed to be plain names, which is the only way the
program builds paths). -/

/-- Rust `str::rsplit_once('.')`: split at the last dot, or `none`
when the string has no dot. -/
def rsplitOnceDotL : List Char → Option (List Char × List Char)
  | [] => none
  | c :: cs =>
    match rsplitOnceDotL cs with
    | some (pre, suf) => some (c :: pre, suf)
    | none => if c = '.' then some ([], cs) else none

structure FsPath where
  absolute : Bool
  components : List String
deriving DecidableEq, Repr

def FsPath.fileName (p : FsPath) : Option String := p.components.getLast?

/-- Rust `Path::file_stem` restricted to one file name: the whole name
when there is no dot or only a leading dot, else the part before the
last dot. -/
def nameStem (n : String) : String :=
  match rsplitOnceDotL n.data with
  | none => n
  | some (pre, _) => if pre = [] then n else String.mk pre

/-- Rust `Path::extension` restricted to one file name: `none` when
there is no dot or only a leading dot, else the part after the last
dot. -/
def nameExt (n : String) : Option String :=
  match rsplitOnceDotL n.data with
  | none => none
  | some (pre, suf) => if pre = [] then none else some (String.mk suf)

def FsPath.fileStem (p : FsPath) : Option String := p.fileName.map nameStem

def FsPath.extension (p : FsPath) : Option String := p.fileName.bind nameExt

def FsPath.parent (p : FsPath) : Option FsPath :=
  match p.components with
  | [] => none
  | _ :: _ => some ⟨p.absolute, p.components.dropLast⟩

def FsPath.join (p : FsPath) (s : String) : FsPath :=
  ⟨p.absolute, p.components ++ [s]⟩

/-! Planner. -/

/-- The `TrackMetadata` record of `src/tags.rs` (track numbers are
`u32`; the program never does arithmetic on them, so `Nat` is an exact
model). -/
structure TrackMetadata where
  artist : String
  album : String
  title : Option String
  track_number : Option Nat
deriving DecidableEq, Repr

/-- The `PlannedMove` record of `src/sorting.rs`. -/
structure PlannedMove where
  source : FsPath
  dest : FsPath
  folder_name : String
  file_name : String
deriving DecidableEq, Repr

/-- Default `PlannedMove`, only used as the out-of-range value of
`List.getD` in theorem statements. -/
def pmDflt : PlannedMove := ⟨⟨false, []⟩, ⟨false, []⟩, "", ""⟩

/-- Rust format specifier `{:02}` on an unsigned integer. -/
def pad2 (n : Nat) : String := if n < 10 then "0" ++ toString n else toString n

/-- The `compute_destination` function of `src/sorting.rs`. -/
def compute_destination (base_dir source : FsPath) (meta : TrackMetadata) :
    PlannedMove :=
  let artist := sanitize meta.artist
  let album := sanitize meta.album
  let folder_name := artist ++ " - " ++ album
  let ext : String :=
    match source.extension with
    | some e => e
    | none =>
      match source.fileName with
      | some n =>
        match rsplitOnceDotL n.data with
        | some (_, e) => String.mk e
        | none => ""
      | none => ""
  let title : String :=
    match meta.title with
    | some t => sanitize t
    | none => (source.fileStem).getD "Unknown"
  let file_name :=
    match meta.track_number with
    | some n => pad2 n ++ " - " ++ title ++ "." ++ ext
    | none => title ++ "." ++ ext
  let dest := (base_dir.join folder_name).join file_name
  ⟨source, dest, folder_name, file_name⟩

/-- The `compute_unsorted_destination` function of `src/sorting.rs`. -/
def compute_unsorted_destination (base_dir source : FsPath) : PlannedMove :=
  let file_name := (source.fileName).getD "unknown"
  let folder_name := "_Unsorted"
  ⟨source, (base_dir.join folder_name).join file_name, folder_name, file_name⟩

example :
    compute_destination ⟨true, ["music"]⟩ ⟨true, ["downloads", "01 Song.m4a"]⟩
      ⟨"Artist", "Album", some "Song Title", some 1⟩ =
    ⟨⟨true, ["downloads", "01 Song.m4a"]⟩,
     ⟨true, ["music", "Artist - Album", "01 - Song Title.m4a"]⟩,
     "Artist - Album", "01 - Song Title.m4a"⟩ := by decide

example :
    (compute_destination ⟨true, ["music"]⟩ ⟨true, ["downloads", "song.mp3"]⟩
      ⟨"A", "B", some "Title", none⟩).file_name = "Title.mp3" := by decide

example :
    (compute_destination ⟨true, ["music"]⟩
      ⟨true, ["downloads", "03 Original Name.flac"]⟩
      ⟨"X", "Y", none, some 3⟩).file_name = "03 - 03 Original Name.flac" := by
  decide

example :
    (compute_unsorted_destination ⟨true, ["music"]⟩
      ⟨true, ["downloads", "weird file.m4a"]⟩).dest =
    ⟨true, ["music", "_Unsorted", "weird file.m4a"]⟩ := by decide

/-! Conflict resolver.  The on-disk state at resolution time is a
predicate `de : FsPath → Bool` modelling `Path::exists`.  The `while`
loop of `resolve_conflicts` is written with a fuel argument; the fuel
starts at `MAX_CONFLICT_ATTEMPTS` and the loop keeps the invariant
`fuel + counter = MAX_CONFLICT_ATTEMPTS + 1`, so the fuel-exhausted
branch is unreachable (`conflictLoop_spec` below). -/

def MAX_CONFLICT_ATTEMPTS : Nat := 10000

/-- One candidate name of the disambiguation loop: the stem and
extension are always taken from the entry's original `dest`
(`m.dest.file_stem()` / `m.dest.extension()` in the source), and
`" ({counter})"` goes before the extension, with no dot appended when
the extension is empty.  Rust unwraps the parent (`dest` always has
one where the loop runs); the model uses the componentless path as the
default. -/
def mkCandidate (dest : FsPath) (counter : Nat) : FsPath :=
  let stem := (dest.fileStem).getD "file"
  let ext := (dest.extension).getD ""
  let parent := (dest.parent).getD ⟨dest.absolute, []⟩
  let new_name :=
    if ext = "" then stem ++ " (" ++ toString counter ++ ")"
    else stem ++ " (" ++ toString counter ++ ")." ++ ext
  parent.join new_name

/-- Candidate formation as the specification sentence for the claim
words it: split the CURRENT candidate (rather than the entry's
original `dest`) into stem and extension and insert the disambiguator
before the extension.  Only used to compare against the code's
`mkCandidate`. -/
def specNextCandidate (c : FsPath) (counter : Nat) : FsPath :=
  let stem := (c.fileStem).getD "file"
  let ext := (c.extension).getD ""
  let parent := (c.parent).getD ⟨c.absolute, []⟩
  let new_name :=
    if ext = "" then stem ++ " (" ++ toString counter ++ ")"
    else stem ++ " (" ++ toString counter ++ ")." ++ ext
  parent.join new_name

/-- The `while candidate.exists() || claimed.contains(&candidate)`
loop of `resolve_conflicts`.  Returns the final candidate and whether
the bounded retry gave up (the `break` arm of `checked_add`).  The
counter is compared against the ceiling exactly as in the source:
after generating the candidate for `counter`, the loop continues only
when `counter + 1 ≤ MAX_CONFLICT_ATTEMPTS`. -/
def conflictLoop (de : FsPath → Bool) (claimed : List FsPath) (dest : FsPath) :
    Nat → FsPath → Nat → FsPath × Bool
  | 0, candidate, _ => (candidate, true)
  | fuel + 1, candidate, counter =>
    if de candidate = true ∨ candidate ∈ claimed then
      let c := mkCandidate dest counter
      if counter + 1 ≤ MAX_CONFLICT_ATTEMPTS then
        conflictLoop de claimed dest fuel c (counter + 1)
      else (c, true)
    else (candidate, false)

/-- Entry of the disambiguation loop: `candidate` starts at `dest`,
`counter` at 1. -/
def resolveLoop (de : FsPath → Bool) (claimed : List FsPath) (dest : FsPath) :
    FsPath × Bool :=
  conflictLoop de claimed dest MAX_CONFLICT_ATTEMPTS dest 1

/-- One iteration of the `for m in moves.iter_mut()` loop of
`resolve_conflicts`: skip in-place entries, run the disambiguation
loop, update `dest`/`file_name` when the candidate moved, insert the
candidate into the claimed set.  Also reports the give-up flag. -/
def resolveStep (de : FsPath → Bool) (claimed : List FsPath)
    (m : PlannedMove) : PlannedMove × List FsPath × Bool :=
  if m.source = m.dest then (m, claimed, false)
  else
    let r := resolveLoop de claimed m.dest
    let candidate := r.1
    let m' :=
      if candidate ≠ m.dest then
        { m with
          file_name := (candidate.fileName).getD "unknown"
          dest := candidate }
      else m
    (m', candidate :: claimed, r.2)

/-- The full `resolve_conflicts` pass, threading the claimed set and
collecting the or of all give-up flags. -/
def resolveAll (de : FsPath → Bool) :
    List PlannedMove → List FsPath → List PlannedMove × List FsPath × Bool
  | [], claimed => ([], claimed, false)
  | m :: ms, claimed =>
    let s := resolveStep de claimed m
    let rest := resolveAll de ms s.2.1
    (s.1 :: rest.1, rest.2.1, s.2.2 || rest.2.2)

/-- The `resolve_conflicts` function of `src/sorting.rs` (the batch
after mutation in place). -/
def resolve_conflicts (de : FsPath → Bool) (moves : List PlannedMove) :
    List PlannedMove :=
  (resolveAll de moves []).1

/-- True when some entry's disambiguation loop reached the ceiling and
gave up. -/
def resolveHitCeiling (de : FsPath → Bool) (moves : List PlannedMove) : Bool :=
  (resolveAll de moves []).2.2

example :
    resolve_conflicts (fun _ => false)
      [⟨⟨true, ["a", "file1.mp3"]⟩, ⟨true, ["b", "song.mp3"]⟩, "folder", "song.mp3"⟩,
       ⟨⟨true, ["a", "file2.mp3"]⟩, ⟨true, ["b", "song.mp3"]⟩, "folder", "song.mp3"⟩] =
      [⟨⟨true, ["a", "file1.mp3"]⟩, ⟨true, ["b", "song.mp3"]⟩, "folder", "song.mp3"⟩,
       ⟨⟨true, ["a", "file2.mp3"]⟩, ⟨true, ["b", "song (1).mp3"]⟩, "folder",
        "song (1).mp3"⟩] := by decide

example :
    resolve_conflicts (fun _ => false)
      [⟨⟨true, ["m", "01 - Song.m4a"]⟩, ⟨true, ["m", "01 - Song.m4a"]⟩, "m",
        "01 - Song.m4a"⟩] =
      [⟨⟨true, ["m", "01 - Song.m4a"]⟩, ⟨true, ["m", "01 - Song.m4a"]⟩, "m",
        "01 - Song.m4a"⟩] := by decide

/-! Mover.  The filesystem is an association list from paths to file
sizes (`fs::metadata(..).len()` is the only content observation the
code makes).  The outcomes of the fallible system calls that do not
depend on the modelled state — `create_dir_all`, `rename`, `copy`,
and the final `remove_file` of the source — are injected through a
`MoveEnv` oracle, so the theorems quantify over every failure
combination.  Every primitive call that `execute_move` issues is
recorded in an action trace. -/

abbrev FileMap : Type := List (FsPath × Nat)

def fmLookup (fs : FileMap) (p : FsPath) : Option Nat :=
  match fs with
  | [] => none
  | e :: rest => if e.1 = p then some e.2 else fmLookup rest p

def fmExists (fs : FileMap) (p : FsPath) : Bool := (fmLookup fs p).isSome

def fmErase (fs : FileMap) (p : FsPath) : FileMap :=
  fs.filter fun e => e.1 ≠ p

def fmInsert (fs : FileMap) (p : FsPath) (n : Nat) : FileMap :=
  (p, n) :: fmErase fs p

/-- Effect of a successful `fs::rename`: move the binding of the
source to the destination.  (A rename with a missing source cannot
succeed on a real filesystem; the model leaves the map unchanged in
that vacuous case.) -/
def fmRename (fs : FileMap) (src dst : FsPath) : FileMap :=
  match fmLookup fs src with
  | some n => fmInsert (fmErase fs src) dst n
  | none => fs

/-- Outcome of the `fs::rename` call: success, failure with
`libc::EXDEV` (cross-device), or failure with any other error code. -/
inductive RenameOutcome where
  | ok
  | exdev
  | otherErr
deriving DecidableEq, Repr

/-- Failure injection for one `execute_move` call. `copyBytes = some n`
means `fs::copy` succeeded and reported `n` bytes copied (the copy
written to the destination has that size); `none` means it failed. -/
structure MoveEnv where
  mkdirOk : Bool
  rename : RenameOutcome
  copyBytes : Option Nat
  removeSourceOk : Bool
deriving DecidableEq, Repr

/-- Primitive filesystem calls issued by `execute_move`, in order. -/
inductive Act where
  | mkdirA
  | renameA
  | statA
  | copyA
  | removeDestA
  | removeSourceA
deriving DecidableEq, Repr

/-- Classified errors of `execute_move`, one per `bail!`/`context`
site in the source. -/
inductive MoveErr where
  | mkdirFailed
  | destExists
  | renameFailed
  | metadataFailed
  | copyFailed
  | verifyFailed
  | removeSourceFailed
deriving DecidableEq, Repr

instance {ε α : Type} [DecidableEq ε] [DecidableEq α] :
    DecidableEq (Except ε α) := fun a b =>
  match a, b with
  | .ok x, .ok y =>
    if h : x = y then .isTrue (by rw [h]) else
      .isFalse (by intro hc; cases hc; exact h rfl)
  | .error x, .error y =>
    if h : x = y then .isTrue (by rw [h]) else
      .isFalse (by intro hc; cases hc; exact h rfl)
  | .ok _, .error _ => .isFalse (by intro hc; cases hc)
  | .error _, .ok _ => .isFalse (by intro hc; cases hc)

structure MoveResult where
  res : Except MoveErr Unit
  fs : FileMap
  trace : List Act
deriving DecidableEq, Repr

/-- The `execute_move` function of `src/sorting.rs` over the modelled
filesystem: no-op fast path, recursive parent creation, destination
re-check, rename, and the copy-verify-delete fallback taken only on a
cross-device rename failure. -/
def execute_move (fs : FileMap) (planned : PlannedMove) (env : MoveEnv) :
    MoveResult :=
  if planned.source = planned.dest then ⟨.ok (), fs, []⟩
  else
    let t0 : List Act :=
      match planned.dest.parent with
      | some _ => [.mkdirA]
      | none => []
    if (planned.dest.parent).isSome && !env.mkdirOk then
      ⟨.error .mkdirFailed, fs, t0⟩
    else if fmExists fs planned.dest then
      ⟨.error .destExists, fs, t0⟩
    else
      match env.rename with
      | .ok => ⟨.ok (), fmRename fs planned.source planned.dest, t0 ++ [.renameA]⟩
      | .otherErr => ⟨.error .renameFailed, fs, t0 ++ [.renameA]⟩
      | .exdev =>
        match fmLookup fs planned.source with
        | none => ⟨.error .metadataFailed, fs, t0 ++ [.renameA, .statA]⟩
        | some source_len =>
          match env.copyBytes with
          | none => ⟨.error .copyFailed, fs, t0 ++ [.renameA, .statA, .copyA]⟩
          | some bytes_copied =>
            let fs1 := fmInsert fs planned.dest bytes_copied
            if bytes_copied ≠ source_len then
              ⟨.error .verifyFailed, fmErase fs1 planned.dest,
               t0 ++ [.renameA, .statA, .copyA, .removeDestA]⟩
            else if env.removeSourceOk then
              ⟨.ok (), fmErase fs1 planned.source,
               t0 ++ [.renameA, .statA, .copyA, .removeSourceA]⟩
            else
              ⟨.error .removeSourceFailed, fs1,
               t0 ++ [.renameA, .statA, .copyA, .removeSourceA]⟩

example :
    execute_move [(⟨true, ["tmp", "source.txt"]⟩, 12)]
      ⟨⟨true, ["tmp", "source.txt"]⟩, ⟨true, ["tmp", "subdir", "dest.txt"]⟩,
       "subdir", "dest.txt"⟩
      ⟨true, .ok, none, true⟩ =
    ⟨.ok (), [(⟨true, ["tmp", "subdir", "dest.txt"]⟩, 12)],
     [.mkdirA, .renameA]⟩ := by decide

example :
    (execute_move [(⟨true, ["tmp", "a.txt"]⟩, 1), (⟨true, ["tmp", "b.txt"]⟩, 1)]
      ⟨⟨true, ["tmp", "a.txt"]⟩, ⟨true, ["tmp", "b.txt"]⟩, "f", "b.txt"⟩
      ⟨true, .ok, none, true⟩).res = .error .destExists := by decide

example :
    execute_move [] ⟨⟨true, ["x", "same.mp3"]⟩, ⟨true, ["x", "same.mp3"]⟩, "f",
      "same.mp3"⟩ ⟨true, .ok, none, true⟩ = ⟨.ok (), [], []⟩ := by decide

/-! Lemmas about the disambiguation loop. -/

/-- Full characterization of one run of the bounded-retry loop: on a
normal exit the final candidate collides with nothing; when the loop
gives up the final candidate is the one generated at the ceiling; and
the final candidate is either the initial one or a generated
disambiguation of the original `dest`. -/
lemma conflictLoop_spec (de : FsPath → Bool) (claimed : List FsPath)
    (dest : FsPath) :
    ∀ (fuel : Nat) (candidate : FsPath) (counter : Nat),
      counter + fuel = MAX_CONFLICT_ATTEMPTS + 1 →
      counter ≤ MAX_CONFLICT_ATTEMPTS →
      (((conflictLoop de claimed dest fuel candidate counter).2 = false →
          de (conflictLoop de claimed dest fuel candidate counter).1 = false ∧
          (conflictLoop de claimed dest fuel candidate counter).1 ∉ claimed) ∧
        ((conflictLoop de claimed dest fuel candidate counter).2 = true →
          (conflictLoop de claimed dest fuel candidate counter).1 =
            mkCandidate dest MAX_CONFLICT_ATTEMPTS) ∧
        ((conflictLoop de claimed dest fuel candidate counter).1 = candidate ∨
          ∃ n, counter ≤ n ∧ n ≤ MAX_CONFLICT_ATTEMPTS ∧
            (conflictLoop de claimed dest fuel candidate counter).1 =
              mkCandidate dest n)) := by
  intro fuel
  induction fuel with
  | zero => intro candidate counter h1 h2; omega
  | succ f ih =>
    intro candidate counter h1 h2
    simp only [conflictLoop]
    by_cases hc : de candidate = true ∨ candidate ∈ claimed
    · rw [if_pos hc]
      by_cases hcnt : counter + 1 ≤ MAX_CONFLICT_ATTEMPTS
      · rw [if_pos hcnt]
        have h := ih (mkCandidate dest counter) (counter + 1) (by omega) hcnt
        refine ⟨h.1, h.2.1, ?_⟩
        rcases h.2.2 with h3 | ⟨n, hn1, hn2, hn3⟩
        · exact Or.inr ⟨counter, le_refl _, by omega, h3⟩
        · exact Or.inr ⟨n, by omega, hn2, hn3⟩
      · rw [if_neg hcnt]
        have hcm : counter = MAX_CONFLICT_ATTEMPTS := by omega
        exact ⟨by simp, fun _ => by rw [hcm], Or.inr ⟨counter, le_refl _, by omega, rfl⟩⟩
    · rw [if_neg hc]
      push_neg at hc
      refine ⟨fun _ => ⟨?_, hc.2⟩, by simp, Or.inl rfl⟩
      simpa using hc.1

lemma max_attempts_pos : 1 ≤ MAX_CONFLICT_ATTEMPTS := by decide

/-- Normal exit of the loop means the result collides with nothing. -/
lemma resolveLoop_false (de : FsPath → Bool) (claimed : List FsPath)
    (dest : FsPath) (h : (resolveLoop de claimed dest).2 = false) :
    de (resolveLoop de claimed dest).1 = false ∧
    (resolveLoop de claimed dest).1 ∉ claimed :=
  (conflictLoop_spec de claimed dest MAX_CONFLICT_ATTEMPTS dest 1 (by omega)
    max_attempts_pos).1 h

/-- When the loop gives up it keeps the candidate generated at the
ceiling. -/
lemma resolveLoop_true (de : FsPath → Bool) (claimed : List FsPath)
    (dest : FsPath) (h : (resolveLoop de claimed dest).2 = true) :
    (resolveLoop de claimed dest).1 = mkCandidate dest MAX_CONFLICT_ATTEMPTS :=
  (conflictLoop_spec de claimed dest MAX_CONFLICT_ATTEMPTS dest 1 (by omega)
    max_attempts_pos).2.1 h

/-- Every candidate the loop can settle on is the original `dest` or a
disambiguation of the original `dest` with an index between 1 and the
ceiling. -/
lemma resolveLoop_shape (de : FsPath → Bool) (claimed : List FsPath)
    (dest : FsPath) :
    (resolveLoop de claimed dest).1 = dest ∨
    ∃ n, 1 ≤ n ∧ n ≤ MAX_CONFLICT_ATTEMPTS ∧
      (resolveLoop de claimed dest).1 = mkCandidate dest n :=
  (conflictLoop_spec de claimed dest MAX_CONFLICT_ATTEMPTS dest 1 (by omega)
    max_attempts_pos).2.2

/-- When everything on disk collides the loop necessarily gives up. -/
lemma conflictLoop_allCollide (de : FsPath → Bool) (claimed : List FsPath)
    (dest : FsPath) (hall : ∀ p, de p = true) :
    ∀ (fuel : Nat) (candidate : FsPath) (counter : Nat),
      (conflictLoop de claimed dest fuel candidate counter).2 = true := by
  intro fuel
  induction fuel with
  | zero => intro candidate counter; rfl
  | succ f ih =>
    intro candidate counter
    simp only [conflictLoop]
    rw [if_pos (Or.inl (hall candidate))]
    by_cases hcnt : counter + 1 ≤ MAX_CONFLICT_ATTEMPTS
    · rw [if_pos hcnt]; exact ih _ _
    · rw [if_neg hcnt]

/-- Splitting at the last dot reconstructs the original character
list. -/
lemma rsplitOnceDotL_eq :
    ∀ {cs pre suf : List Char}, rsplitOnceDotL cs = some (pre, suf) →
      cs = pre ++ '.' :: suf := by
  intro cs
  induction cs with
  | nil => intro pre suf h; simp [rsplitOnceDotL] at h
  | cons c cs ih =>
    intro pre suf h
    unfold rsplitOnceDotL at h
    cases hr : rsplitOnceDotL cs with
    | some ps =>
      obtain ⟨p, s⟩ := ps
      rw [hr] at h
      simp only [Option.some.injEq, Prod.mk.injEq] at h
      obtain ⟨h1, h2⟩ := h
      rw [← h1, ← h2]
      simpa using congrArg (c :: ·) (ih hr)
    | none =>
      rw [hr] at h
      by_cases hc : c = '.'
      · rw [if_pos hc] at h
        simp only [Option.some.injEq, Prod.mk.injEq] at h
        obtain ⟨h1, h2⟩ := h
        rw [← h1, ← h2, hc]
        rfl
      · rw [if_neg hc] at h
        exact absurd h (by simp)

/-- The disambiguated file name is strictly longer than the file name
it is derived from, for every counter value. -/
lemma mkCandidate_name_longer (name : String) (k : Nat) :
    name.length <
      (if (nameExt name).getD "" = "" then
        nameStem name ++ " (" ++ toString k ++ ")"
      else
        nameStem name ++ " (" ++ toString k ++ ")." ++
          (nameExt name).getD "").length := by
  have hsp : (" (" : String).length = 2 := rfl
  have hcp : (")" : String).length = 1 := rfl
  have hdot : ("." : String).length = 1 := rfl
  cases hr : rsplitOnceDotL name.data with
  | none =>
    have he : nameExt name = none := by unfold nameExt; rw [hr]
    have hs : nameStem name = name := by unfold nameStem; rw [hr]
    rw [he, hs]
    simp only [Option.getD_none]
    simp only [if_true]
    simp only [String.length_append]
    omega
  | some ps =>
    obtain ⟨pre, suf⟩ := ps
    have hdata : name.data = pre ++ '.' :: suf := rsplitOnceDotL_eq hr
    have hlen : name.length = pre.length + 1 + suf.length := by
      show name.data.length = _
      rw [hdata]
      simp
      omega
    by_cases hpre : pre = []
    · have he : nameExt name = none := by
        unfold nameExt
        rw [hr]
        show (if pre = [] then none else some (String.mk suf)) = none
        rw [if_pos hpre]
      have hs : nameStem name = name := by
        unfold nameStem
        rw [hr]
        show (if pre = [] then name else String.mk pre) = name
        rw [if_pos hpre]
      rw [he, hs]
      simp only [Option.getD_none]
      simp only [if_true]
      simp only [String.length_append]
      omega
    · have he : nameExt name = some (String.mk suf) := by
        unfold nameExt
        rw [hr]
        show (if pre = [] then none else some (String.mk suf)) = _
        rw [if_neg hpre]
      have hs : nameStem name = String.mk pre := by
        unfold nameStem
        rw [hr]
        show (if pre = [] then name else String.mk pre) = _
        rw [if_neg hpre]
      rw [he, hs]
      simp only [Option.getD_some]
      have h1 : (String.mk pre).length = pre.length := rfl
      have h2 : (String.mk suf).length = suf.length := rfl
      by_cases hsuf : String.mk suf = ""
      · have hsl : suf = [] := congrArg String.data hsuf
        rw [hsl] at hlen
        simp only [List.length_nil, Nat.add_zero] at hlen
        rw [if_pos hsuf]
        simp only [String.length_append, h1]
        omega
      · rw [if_neg hsuf]
        simp only [String.length_append, h1, h2]
        omega

/-- A generated candidate is never the original `dest` (its final
component is strictly longer). -/
lemma mkCandidate_ne (d : FsPath) (k : Nat) : mkCandidate d k ≠ d := by
  intro h
  cases hc : d.components with
  | nil =>
    have hcomp := congrArg FsPath.components h
    simp only [mkCandidate, FsPath.join] at hcomp
    rw [hc] at hcomp
    have hp : d.parent = none := by
      simp [FsPath.parent, hc]
    rw [hp] at hcomp
    simp at hcomp
  | cons c rest =>
    have hne : d.components ≠ [] := by rw [hc]; simp
    have hlast : d.fileName = some (d.components.getLast hne) := by
      unfold FsPath.fileName
      exact List.getLast?_eq_getLast_of_ne_nil hne
    set lastName := d.components.getLast hne with hln
    have hp : d.parent = some ⟨d.absolute, d.components.dropLast⟩ := by
      unfold FsPath.parent
      rw [hc]
    have hcomp := congrArg FsPath.components h
    simp only [mkCandidate, FsPath.join, hp, Option.getD_some] at hcomp
    have hstem : d.fileStem = some (nameStem lastName) := by
      unfold FsPath.fileStem
      rw [hlast]
      rfl
    have hext : d.extension = nameExt lastName := by
      unfold FsPath.extension
      rw [hlast]
      rfl
    rw [hstem, hext] at hcomp
    simp only [Option.getD_some] at hcomp
    have hlq := congrArg List.getLast? hcomp
    rw [List.getLast?_concat] at hlq
    rw [List.getLast?_eq_getLast_of_ne_nil hne] at hlq
    simp only [Option.some.injEq] at hlq
    have hlong := mkCandidate_name_longer lastName k
    rw [hlq] at hlong
    exact absurd hlong (by simp)

/-- Single unfolding step of the loop at positive fuel. -/
lemma conflictLoop_succ (de : FsPath → Bool) (claimed : List FsPath)
    (dest : FsPath) (fuel : Nat) (candidate : FsPath) (counter : Nat) :
    conflictLoop de claimed dest (fuel + 1) candidate counter =
      if de candidate = true ∨ candidate ∈ claimed then
        if counter + 1 ≤ MAX_CONFLICT_ATTEMPTS then
          conflictLoop de claimed dest fuel (mkCandidate dest counter)
            (counter + 1)
        else (mkCandidate dest counter, true)
      else (candidate, false) := rfl

/-- When `dest` itself collides with nothing the loop returns it
unchanged. -/
lemma resolveLoop_nocollide (de : FsPath → Bool) (claimed : List FsPath)
    (dest : FsPath) (h1 : de dest = false) (h2 : dest ∉ claimed) :
    resolveLoop de claimed dest = (dest, false) := by
  unfold resolveLoop
  rw [show MAX_CONFLICT_ATTEMPTS = 9999 + 1 from rfl, conflictLoop_succ]
  rw [if_neg]
  intro hor
  rcases hor with ho | ho
  · rw [h1] at ho; cases ho
  · exact h2 ho

/-- When `dest` collides but its first disambiguation is free, the
loop returns the first disambiguation. -/
lemma resolveLoop_second (de : FsPath → Bool) (claimed : List FsPath)
    (dest : FsPath) (hc : de dest = true ∨ dest ∈ claimed)
    (h1 : de (mkCandidate dest 1) = false)
    (h2 : mkCandidate dest 1 ∉ claimed) :
    resolveLoop de claimed dest = (mkCandidate dest 1, false) := by
  unfold resolveLoop
  rw [show MAX_CONFLICT_ATTEMPTS = 9998 + 1 + 1 from rfl, conflictLoop_succ]
  rw [if_pos hc, if_pos (by decide : 1 + 1 ≤ MAX_CONFLICT_ATTEMPTS)]
  rw [conflictLoop_succ]
  rw [if_neg]
  intro hor
  rcases hor with ho | ho
  · rw [h1] at ho; cases ho
  · exact h2 ho

/-! Lemmas about the whole resolution pass. -/

lemma resolveStep_skip (de : FsPath → Bool) (claimed : List FsPath)
    (m : PlannedMove) (h : m.source = m.dest) :
    resolveStep de claimed m = (m, claimed, false) := by
  unfold resolveStep
  rw [if_pos h]

lemma resolveStep_nonskip (de : FsPath → Bool) (claimed : List FsPath)
    (m : PlannedMove) (h : m.source ≠ m.dest) :
    (resolveStep de claimed m).1.dest = (resolveLoop de claimed m.dest).1 ∧
    (resolveStep de claimed m).2.1 =
      (resolveLoop de claimed m.dest).1 :: claimed ∧
    (resolveStep de claimed m).2.2 = (resolveLoop de claimed m.dest).2 := by
  unfold resolveStep
  rw [if_neg h]
  dsimp only
  by_cases hx : (resolveLoop de claimed m.dest).1 ≠ m.dest
  · rw [if_pos hx]
    exact ⟨rfl, rfl, rfl⟩
  · rw [if_neg hx]
    push_neg at hx
    exact ⟨hx.symm, rfl, rfl⟩

lemma resolveStep_claimed_sub (de : FsPath → Bool) (claimed : List FsPath)
    (m : PlannedMove) : claimed ⊆ (resolveStep de claimed m).2.1 := by
  by_cases h : m.source = m.dest
  · rw [resolveStep_skip de claimed m h]
    exact fun _ hp => hp
  · rw [(resolveStep_nonskip de claimed m h).2.1]
    exact fun _ hp => List.mem_cons_of_mem _ hp

lemma resolveAll_cons (de : FsPath → Bool) (m : PlannedMove)
    (ms : List PlannedMove) (claimed : List FsPath) :
    resolveAll de (m :: ms) claimed =
      ((resolveStep de claimed m).1 ::
        (resolveAll de ms (resolveStep de claimed m).2.1).1,
       (resolveAll de ms (resolveStep de claimed m).2.1).2.1,
       (resolveStep de claimed m).2.2 ||
        (resolveAll de ms (resolveStep de claimed m).2.1).2.2) := rfl

lemma resolveAll_length (de : FsPath → Bool) :
    ∀ (ms : List PlannedMove) (claimed : List FsPath),
      (resolveAll de ms claimed).1.length = ms.length := by
  intro ms
  induction ms with
  | nil => intro claimed; rfl
  | cons m ms ih =>
    intro claimed
    rw [resolveAll_cons]
    simp only [List.length_cons, ih]

lemma resolveAll_claimed_mono (de : FsPath → Bool) :
    ∀ (ms : List PlannedMove) (claimed : List FsPath),
      claimed ⊆ (resolveAll de ms claimed).2.1 := by
  intro ms
  induction ms with
  | nil => intro claimed; exact fun p hp => hp
  | cons m ms ih =>
    intro claimed
    rw [resolveAll_cons]
    exact fun p hp =>
      ih (resolveStep de claimed m).2.1 (resolveStep_claimed_sub de claimed m hp)

lemma resolveAll_skipped (de : FsPath → Bool) :
    ∀ (ms : List PlannedMove) (claimed : List FsPath) (i : Nat),
      i < ms.length →
      (ms.getD i pmDflt).source = (ms.getD i pmDflt).dest →
      (resolveAll de ms claimed).1.getD i pmDflt = ms.getD i pmDflt := by
  intro ms
  induction ms with
  | nil => intro claimed i hi; simp at hi
  | cons m ms ih =>
    intro claimed i hi hskip
    rw [resolveAll_cons]
    cases i with
    | zero =>
      simp only [List.getD_cons_zero] at hskip ⊢
      rw [resolveStep_skip de claimed m hskip]
    | succ j =>
      simp only [List.getD_cons_succ] at hskip ⊢
      exact ih _ j (by simp only [List.length_cons] at hi; omega) hskip

/-- Freshness invariant of the resolved batch: if no entry gave up,
every processed (non-skipped) entry ends with a destination that does
not exist on disk, was not in the claimed set the pass started from,
and is in the final claimed set. -/
lemma resolveAll_fresh (de : FsPath → Bool) :
    ∀ (ms : List PlannedMove) (claimed : List FsPath) (i : Nat),
      (resolveAll de ms claimed).2.2 = false →
      i < ms.length →
      (ms.getD i pmDflt).source ≠ (ms.getD i pmDflt).dest →
      de ((resolveAll de ms claimed).1.getD i pmDflt).dest = false ∧
      ((resolveAll de ms claimed).1.getD i pmDflt).dest ∉ claimed ∧
      ((resolveAll de ms claimed).1.getD i pmDflt).dest ∈
        (resolveAll de ms claimed).2.1 := by
  intro ms
  induction ms with
  | nil => intro claimed i hflag hi; simp at hi
  | cons m ms ih =>
    intro claimed i hflag hi hns
    rw [resolveAll_cons] at hflag ⊢
    simp only [Bool.or_eq_false_iff] at hflag
    cases i with
    | zero =>
      simp only [List.getD_cons_zero] at hns ⊢
      have hstep := resolveStep_nonskip de claimed m hns
      have hloop : (resolveLoop de claimed m.dest).2 = false := by
        rw [← hstep.2.2]; exact hflag.1
      have hfree := resolveLoop_false de claimed m.dest hloop
      refine ⟨by rw [hstep.1]; exact hfree.1, by rw [hstep.1]; exact hfree.2, ?_⟩
      rw [hstep.1]
      apply resolveAll_claimed_mono de ms (resolveStep de claimed m).2.1
      rw [hstep.2.1]
      exact List.mem_cons_self _ _
    | succ j =>
      simp only [List.getD_cons_succ] at hns ⊢
      have hrest := ih (resolveStep de claimed m).2.1 j hflag.2
        (by simp only [List.length_cons] at hi; omega) hns
      exact ⟨hrest.1,
        fun hmem => hrest.2.1 (resolveStep_claimed_sub de claimed m hmem),
        hrest.2.2⟩

/-- Pairwise distinctness of the destinations of processed entries
when no entry gave up. -/
lemma resolveAll_pairwise (de : FsPath → Bool) :
    ∀ (ms : List PlannedMove) (claimed : List FsPath) (i j : Nat),
      (resolveAll de ms claimed).2.2 = false →
      i < j → j < ms.length →
      (ms.getD i pmDflt).source ≠ (ms.getD i pmDflt).dest →
      (ms.getD j pmDflt).source ≠ (ms.getD j pmDflt).dest →
      ((resolveAll de ms claimed).1.getD i pmDflt).dest ≠
        ((resolveAll de ms claimed).1.getD j pmDflt).dest := by
  intro ms
  induction ms with
  | nil => intro claimed i j hflag hij hj; simp at hj
  | cons m ms ih =>
    intro claimed i j hflag hij hj hnsi hnsj
    rw [resolveAll_cons] at hflag ⊢
    simp only [Bool.or_eq_false_iff] at hflag
    cases i with
    | zero =>
      obtain ⟨j', rfl⟩ : ∃ j', j = j' + 1 := ⟨j - 1, by omega⟩
      simp only [List.getD_cons_zero, List.getD_cons_succ] at hnsi hnsj ⊢
      have hstep := resolveStep_nonskip de claimed m hnsi
      have hrest := resolveAll_fresh de ms (resolveStep de claimed m).2.1 j'
        hflag.2 (by simp only [List.length_cons] at hj; omega) hnsj
      intro heq
      apply hrest.2.1
      rw [← heq, hstep.1, hstep.2.1]
      exact List.mem_cons_self _ _
    | succ i' =>
      obtain ⟨j', rfl⟩ : ∃ j', j = j' + 1 := ⟨j - 1, by omega⟩
      simp only [List.getD_cons_succ] at hnsi hnsj ⊢
      exact ih (resolveStep de claimed m).2.1 i' j' hflag.2 (by omega)
        (by simp only [List.length_cons] at hj; omega) hnsi hnsj

/-- The step with a collision-free destination keeps the entry and
claims its destination. -/
lemma resolveStep_eq_of_nocollide (de : FsPath → Bool) (claimed : List FsPath)
    (m : PlannedMove) (h : m.source ≠ m.dest) (h1 : de m.dest = false)
    (h2 : m.dest ∉ claimed) :
    resolveStep de claimed m = (m, m.dest :: claimed, false) := by
  unfold resolveStep
  rw [if_neg h]
  dsimp only
  rw [resolveLoop_nocollide de claimed m.dest h1 h2]
  dsimp only
  rw [if_neg (fun hne => hne rfl)]

/-- The step whose destination collides once moves the entry to the
first disambiguation. -/
lemma resolveStep_eq_second (de : FsPath → Bool) (claimed : List FsPath)
    (m : PlannedMove) (h : m.source ≠ m.dest)
    (hc : de m.dest = true ∨ m.dest ∈ claimed)
    (h1 : de (mkCandidate m.dest 1) = false)
    (h2 : mkCandidate m.dest 1 ∉ claimed) :
    resolveStep de claimed m =
      ({ m with
          dest := mkCandidate m.dest 1
          file_name := ((mkCandidate m.dest 1).fileName).getD "unknown" },
        mkCandidate m.dest 1 :: claimed, false) := by
  unfold resolveStep
  rw [if_neg h]
  dsimp only
  rw [resolveLoop_second de claimed m.dest hc h1 h2]
  dsimp only
  rw [if_pos (mkCandidate_ne m.dest 1)]

/-! Claim theorems for the conflict resolver. -/

/-- C1 (amended): for every batch in which the disambiguation ceiling
is never reached, after `resolve_conflicts` no two entries whose
`source` differs from their `dest` share equal dest paths, and no such
entry's dest equals a path that existed on disk at resolution time.
Entries with `source = dest` are excluded: the resolver skips them, so
they keep a dest that typically exists on disk (their own location). -/
theorem resolve_conflicts_no_collisions (de : FsPath → Bool)
    (ms : List PlannedMove) (i j : Nat)
    (hceil : resolveHitCeiling de ms = false)
    (hi : i < ms.length) (hj : j < ms.length) (hij : i ≠ j)
    (hnsi : (ms.getD i pmDflt).source ≠ (ms.getD i pmDflt).dest)
    (hnsj : (ms.getD j pmDflt).source ≠ (ms.getD j pmDflt).dest) :
    ((resolve_conflicts de ms).getD i pmDflt).dest ≠
      ((resolve_conflicts de ms).getD j pmDflt).dest ∧
    de (((resolve_conflicts de ms).getD i pmDflt).dest) = false := by
  unfold resolve_conflicts
  unfold resolveHitCeiling at hceil
  constructor
  · rcases Nat.lt_or_ge i j with hlt | hge
    · exact resolveAll_pairwise de ms [] i j hceil hlt hj hnsi hnsj
    · have hlt : j < i := by omega
      exact (resolveAll_pairwise de ms [] j i hceil hlt hi hnsj hnsi).symm
  · exact (resolveAll_fresh de ms [] i hceil hi hnsi).1

/-- Witness for C1 (amended) at a concrete two-entry batch mapping to
the same destination. -/
theorem resolve_conflicts_no_collisions_witness :
    ((resolve_conflicts (fun _ => false)
        [⟨⟨true, ["a", "x.mp3"]⟩, ⟨true, ["b", "song.mp3"]⟩, "b", "song.mp3"⟩,
         ⟨⟨true, ["a", "y.mp3"]⟩, ⟨true, ["b", "song.mp3"]⟩, "b",
          "song.mp3"⟩]).getD 0 pmDflt).dest ≠
      ((resolve_conflicts (fun _ => false)
        [⟨⟨true, ["a", "x.mp3"]⟩, ⟨true, ["b", "song.mp3"]⟩, "b", "song.mp3"⟩,
         ⟨⟨true, ["a", "y.mp3"]⟩, ⟨true, ["b", "song.mp3"]⟩, "b",
          "song.mp3"⟩]).getD 1 pmDflt).dest ∧
    (fun (_ : FsPath) => false)
      (((resolve_conflicts (fun _ => false)
        [⟨⟨true, ["a", "x.mp3"]⟩, ⟨true, ["b", "song.mp3"]⟩, "b", "song.mp3"⟩,
         ⟨⟨true, ["a", "y.mp3"]⟩, ⟨true, ["b", "song.mp3"]⟩, "b",
          "song.mp3"⟩]).getD 0 pmDflt).dest) = false :=
  resolve_conflicts_no_collisions (fun _ => false)
    [⟨⟨true, ["a", "x.mp3"]⟩, ⟨true, ["b", "song.mp3"]⟩, "b", "song.mp3"⟩,
     ⟨⟨true, ["a", "y.mp3"]⟩, ⟨true, ["b", "song.mp3"]⟩, "b", "song.mp3"⟩]
    0 1 (by decide) (by decide) (by decide) (by decide) (by decide) (by decide)

/-- Counterexample to C1 as stated: a batch whose single entry has
`source = dest` at a path that exists on disk.  The ceiling is never
reached, yet after resolution the entry's dest equals a path that
existed on disk at resolution time. -/
theorem resolve_conflicts_claim_counterexample :
    resolveHitCeiling (fun q => q = FsPath.mk true ["m", "s.mp3"])
      [⟨⟨true, ["m", "s.mp3"]⟩, ⟨true, ["m", "s.mp3"]⟩, "m", "s.mp3"⟩] =
      false ∧
    (fun q => q = FsPath.mk true ["m", "s.mp3"] : FsPath → Bool)
      (((resolve_conflicts (fun q => q = FsPath.mk true ["m", "s.mp3"])
        [⟨⟨true, ["m", "s.mp3"]⟩, ⟨true, ["m", "s.mp3"]⟩, "m",
          "s.mp3"⟩]).getD 0 pmDflt).dest) = true := by decide

/-- C7 (amended): every retry forms the next candidate by splitting
the entry's ORIGINAL dest (not the current candidate) into stem and
extension and inserting the disambiguator before the extension, with
the counter starting at 1; in particular for two planned moves with
identical dest the first keeps its name and the second receives the
counter-1 disambiguation. -/
theorem conflict_suffix_formation (de : FsPath → Bool) (claimed : List FsPath)
    (dest : FsPath) (s1 s2 d : FsPath) (fldr fn : String) :
    ((resolveLoop de claimed dest).1 = dest ∨
      ∃ n, 1 ≤ n ∧ n ≤ MAX_CONFLICT_ATTEMPTS ∧
        (resolveLoop de claimed dest).1 = mkCandidate dest n) ∧
    (s1 ≠ d → s2 ≠ d → de d = false → de (mkCandidate d 1) = false →
      resolve_conflicts de [⟨s1, d, fldr, fn⟩, ⟨s2, d, fldr, fn⟩] =
        [⟨s1, d, fldr, fn⟩,
         ⟨s2, mkCandidate d 1, fldr,
          ((mkCandidate d 1).fileName).getD "unknown"⟩]) := by
  constructor
  · exact resolveLoop_shape de claimed dest
  · intro hs1 hs2 hd hd1
    unfold resolve_conflicts
    rw [resolveAll_cons,
      resolveStep_eq_of_nocollide de [] ⟨s1, d, fldr, fn⟩ hs1 hd
        (List.not_mem_nil d)]
    dsimp only
    rw [resolveAll_cons,
      resolveStep_eq_second de [d] ⟨s2, d, fldr, fn⟩ hs2
        (Or.inr (List.mem_cons_self d []))
        hd1
        (fun hmem => mkCandidate_ne d 1 (by simpa using hmem))]
    rfl

/-- Witness for C7 (amended) at concrete paths. -/
theorem conflict_suffix_formation_witness :
    resolve_conflicts (fun _ => false)
      [⟨⟨true, ["a", "x.mp3"]⟩, ⟨true, ["b", "song.mp3"]⟩, "b", "song.mp3"⟩,
       ⟨⟨true, ["a", "y.mp3"]⟩, ⟨true, ["b", "song.mp3"]⟩, "b", "song.mp3"⟩] =
      [⟨⟨true, ["a", "x.mp3"]⟩, ⟨true, ["b", "song.mp3"]⟩, "b", "song.mp3"⟩,
       ⟨⟨true, ["a", "y.mp3"]⟩, mkCandidate ⟨true, ["b", "song.mp3"]⟩ 1, "b",
        ((mkCandidate ⟨true, ["b", "song.mp3"]⟩ 1).fileName).getD "unknown"⟩] :=
  (conflict_suffix_formation (fun _ => false) [] ⟨true, ["b", "song.mp3"]⟩
    ⟨true, ["a", "x.mp3"]⟩ ⟨true, ["a", "y.mp3"]⟩ ⟨true, ["b", "song.mp3"]⟩
    "b" "song.mp3").2 (by decide) (by decide) rfl rfl

/-- Counterexample to C7 as stated: with three entries mapping to the
same destination, the code's third candidate is built from the
original dest (`"song (2).mp3"`), not by splitting the current
candidate (`"song (1) (2).mp3"` as the claim's wording requires). -/
theorem conflict_suffix_claim_counterexample :
    ((resolve_conflicts (fun _ => false)
      [⟨⟨true, ["a", "x.mp3"]⟩, ⟨true, ["b", "song.mp3"]⟩, "b", "song.mp3"⟩,
       ⟨⟨true, ["a", "y.mp3"]⟩, ⟨true, ["b", "song.mp3"]⟩, "b", "song.mp3"⟩,
       ⟨⟨true, ["a", "z.mp3"]⟩, ⟨true, ["b", "song.mp3"]⟩, "b",
        "song.mp3"⟩]).getD 2 pmDflt).file_name = "song (2).mp3" ∧
    ((specNextCandidate
        (specNextCandidate ⟨true, ["b", "song.mp3"]⟩ 1) 2).fileName).getD ""
      = "song (1) (2).mp3" ∧
    ("song (2).mp3" : String) ≠ "song (1) (2).mp3" := by decide

/-- C8: the resolver always terminates with a full batch (the pass
preserves the batch length and never reports an error), the
disambiguation loop generates candidates with counters bounded by the
ceiling, and when the loop gives up it silently keeps the candidate
generated at the ceiling counter, 10000. -/
theorem resolve_termination (de : FsPath → Bool) (claimed : List FsPath)
    (dest : FsPath) (ms : List PlannedMove) :
    ((resolveLoop de claimed dest).1 = dest ∨
      ∃ n, 1 ≤ n ∧ n ≤ MAX_CONFLICT_ATTEMPTS ∧
        (resolveLoop de claimed dest).1 = mkCandidate dest n) ∧
    ((resolveLoop de claimed dest).2 = true →
      (resolveLoop de claimed dest).1 =
        mkCandidate dest MAX_CONFLICT_ATTEMPTS) ∧
    (resolve_conflicts de ms).length = ms.length := by
  refine ⟨resolveLoop_shape de claimed dest, resolveLoop_true de claimed dest,
    ?_⟩
  unfold resolve_conflicts
  exact resolveAll_length de ms []

/-- Witness for C8: with every path occupied on disk the loop hits the
ceiling and keeps the counter-10000 candidate; the batch keeps its
length. -/
theorem resolve_termination_witness :
    (resolveLoop (fun _ => true) [] ⟨true, ["b", "song.mp3"]⟩).1 =
      mkCandidate ⟨true, ["b", "song.mp3"]⟩ MAX_CONFLICT_ATTEMPTS ∧
    (resolve_conflicts (fun _ => true)
      [⟨⟨true, ["a", "x.mp3"]⟩, ⟨true, ["b", "song.mp3"]⟩, "b",
        "song.mp3"⟩]).length =
      [(⟨⟨true, ["a", "x.mp3"]⟩, ⟨true, ["b", "song.mp3"]⟩, "b",
        "song.mp3"⟩ : PlannedMove)].length := by
  constructor
  · exact (resolve_termination (fun _ => true) [] ⟨true, ["b", "song.mp3"]⟩
      []).2.1
      (conflictLoop_allCollide (fun _ => true) [] ⟨true, ["b", "song.mp3"]⟩
        (fun _ => rfl) _ _ _)
  · exact (resolve_termination (fun _ => true) [] ⟨true, ["b", "song.mp3"]⟩
      [⟨⟨true, ["a", "x.mp3"]⟩, ⟨true, ["b", "song.mp3"]⟩, "b",
        "song.mp3"⟩]).2.2

/-- C9: an entry with `source = dest` is left completely unaltered by
`resolve_conflicts`, and `execute_move` on such an entry returns
success with the filesystem unchanged and no primitive call issued,
even when the path does not exist. -/
theorem noop_entries (de : FsPath → Bool) (ms : List PlannedMove) (i : Nat)
    (fs : FileMap) (env : MoveEnv) (pm : PlannedMove) :
    (i < ms.length →
      (ms.getD i pmDflt).source = (ms.getD i pmDflt).dest →
      (resolve_conflicts de ms).getD i pmDflt = ms.getD i pmDflt) ∧
    (pm.source = pm.dest → execute_move fs pm env = ⟨.ok (), fs, []⟩) := by
  constructor
  · intro hi hsk
    unfold resolve_conflicts
    exact resolveAll_skipped de ms [] i hi hsk
  · intro hsd
    unfold execute_move
    rw [if_pos hsd]

/-- Witness for C9 at a concrete in-place entry whose path does not
exist in the filesystem. -/
theorem noop_entries_witness :
    (resolve_conflicts (fun _ => false)
      [⟨⟨true, ["m", "01.m4a"]⟩, ⟨true, ["m", "01.m4a"]⟩, "m",
        "01.m4a"⟩]).getD 0 pmDflt =
      [(⟨⟨true, ["m", "01.m4a"]⟩, ⟨true, ["m", "01.m4a"]⟩, "m",
        "01.m4a"⟩ : PlannedMove)].getD 0 pmDflt ∧
    execute_move []
      ⟨⟨true, ["m", "01.m4a"]⟩, ⟨true, ["m", "01.m4a"]⟩, "m", "01.m4a"⟩
      ⟨true, .ok, none, true⟩ = ⟨.ok (), [], []⟩ :=
  ⟨(noop_entries (fun _ => false)
      [⟨⟨true, ["m", "01.m4a"]⟩, ⟨true, ["m", "01.m4a"]⟩, "m", "01.m4a"⟩]
      0 [] ⟨true, .ok, none, true⟩
      ⟨⟨true, ["m", "01.m4a"]⟩, ⟨true, ["m", "01.m4a"]⟩, "m", "01.m4a"⟩).1
      (by decide) (by decide),
   (noop_entries (fun _ => false)
      [⟨⟨true, ["m", "01.m4a"]⟩, ⟨true, ["m", "01.m4a"]⟩, "m", "01.m4a"⟩]
      0 [] ⟨true, .ok, none, true⟩
      ⟨⟨true, ["m", "01.m4a"]⟩, ⟨true, ["m", "01.m4a"]⟩, "m", "01.m4a"⟩).2
      (by decide)⟩

/-! Lemmas about the filesystem map. -/

lemma fmLookup_erase_self (fs : FileMap) (p : FsPath) :
    fmLookup (fmErase fs p) p = none := by
  induction fs with
  | nil => rfl
  | cons e fs ih =>
    unfold fmErase at ih ⊢
    by_cases he : e.1 = p
    · simp only [List.filter_cons]
      rw [if_neg (by simpa using he)]
      exact ih
    · simp only [List.filter_cons]
      rw [if_pos (by simpa using he)]
      unfold fmLookup
      rw [if_neg he]
      exact ih

lemma fmLookup_cons (e : FsPath × Nat) (fs : FileMap) (p : FsPath) :
    fmLookup (e :: fs) p = if e.1 = p then some e.2 else fmLookup fs p := rfl

lemma fmLookup_erase_ne (fs : FileMap) (p q : FsPath) (h : p ≠ q) :
    fmLookup (fmErase fs q) p = fmLookup fs p := by
  induction fs with
  | nil => rfl
  | cons e fs ih =>
    unfold fmErase at ih ⊢
    simp only [List.filter_cons]
    by_cases he : e.1 = q
    · rw [if_neg (by simpa using he)]
      rw [ih, fmLookup_cons]
      rw [if_neg (by rw [he]; exact fun hq => h hq.symm)]
    · rw [if_pos (by simpa using he)]
      rw [fmLookup_cons, fmLookup_cons]
      by_cases hep : e.1 = p
      · rw [if_pos hep, if_pos hep]
      · rw [if_neg hep, if_neg hep]
        exact ih

lemma fmLookup_insert_ne (fs : FileMap) (p q : FsPath) (n : Nat) (h : p ≠ q) :
    fmLookup (fmInsert fs q n) p = fmLookup fs p := by
  show fmLookup ((q, n) :: fmErase fs q) p = fmLookup fs p
  rw [fmLookup_cons]
  rw [if_neg (fun hq => h hq.symm)]
  exact fmLookup_erase_ne fs p q h

/-! Claim theorems for the mover. -/

/-- C2: whenever `execute_move` fails with any of the four
spec-enumerated errors (destination raced into existence, rename
failed for a non-cross-device reason, copy failed, or copied byte
count differed from the recorded source size), the source binding is
untouched; the source is removed only in runs whose copied byte count
equals the recorded source size; and on a verification mismatch the
incomplete destination copy is removed before the error is returned. -/
theorem move_error_source_preserved (fs : FileMap) (pm : PlannedMove)
    (env : MoveEnv) :
    (((execute_move fs pm env).res = .error .destExists ∨
      (execute_move fs pm env).res = .error .renameFailed ∨
      (execute_move fs pm env).res = .error .copyFailed ∨
      (execute_move fs pm env).res = .error .verifyFailed) →
      fmLookup (execute_move fs pm env).fs pm.source =
        fmLookup fs pm.source) ∧
    (Act.removeSourceA ∈ (execute_move fs pm env).trace →
      ∃ len, fmLookup fs pm.source = some len ∧
        env.copyBytes = some len) ∧
    ((execute_move fs pm env).res = .error .verifyFailed →
      fmLookup (execute_move fs pm env).fs pm.dest = none ∧
      Act.removeDestA ∈ (execute_move fs pm env).trace) := by
  by_cases hsd : pm.source = pm.dest
  · refine ⟨?_, ?_, ?_⟩ <;> intro h <;> simp [execute_move, hsd] at h
  · unfold execute_move
    rw [if_neg hsd]
    cases hp : pm.dest.parent with
    | some par =>
      cases hmk : env.mkdirOk with
      | false =>
        rw [if_pos (by simp)]
        refine ⟨?_, ?_, ?_⟩ <;> intro h <;> simp at h
      | true =>
        rw [if_neg (by simp)]
        cases hex : fmExists fs pm.dest with
        | true =>
          rw [if_pos rfl]
          refine ⟨fun _ => rfl, ?_, ?_⟩ <;> intro h <;> simp at h
        | false =>
          rw [if_neg (by simp)]
          cases hr : env.rename with
          | ok =>
            refine ⟨?_, ?_, ?_⟩ <;> intro h <;> simp at h
          | otherErr =>
            refine ⟨fun _ => rfl, ?_, ?_⟩ <;> intro h <;> simp at h
          | exdev =>
            cases hsl : fmLookup fs pm.source with
            | none =>
              refine ⟨?_, ?_, ?_⟩ <;> intro h <;> simp at h
            | some len =>
              cases hcb : env.copyBytes with
              | none =>
                refine ⟨fun _ => hsl, ?_, ?_⟩ <;> intro h <;> simp at h
              | some bytes =>
                dsimp only
                by_cases hv : bytes ≠ len
                · rw [if_pos hv]
                  refine ⟨fun _ => ?_, ?_, fun _ => ?_⟩
                  · rw [fmLookup_erase_ne _ _ _ hsd,
                      fmLookup_insert_ne _ _ _ _ hsd]
                    exact hsl
                  · intro h; simp at h
                  · exact ⟨fmLookup_erase_self _ _, by simp⟩
                · rw [if_neg hv]
                  push_neg at hv
                  cases hrs : env.removeSourceOk with
                  | true =>
                    refine ⟨?_, fun _ => ⟨len, rfl, by rw [hv]⟩, ?_⟩ <;>
                      intro h <;> simp at h
                  | false =>
                    refine ⟨?_, fun _ => ⟨len, rfl, by rw [hv]⟩, ?_⟩ <;>
                      intro h <;> simp at h
    | none =>
      rw [if_neg (by simp)]
      cases hex : fmExists fs pm.dest with
      | true =>
        rw [if_pos rfl]
        refine ⟨fun _ => rfl, ?_, ?_⟩ <;> intro h <;> simp at h
      | false =>
        rw [if_neg (by simp)]
        cases hr : env.rename with
        | ok =>
          refine ⟨?_, ?_, ?_⟩ <;> intro h <;> simp at h
        | otherErr =>
          refine ⟨fun _ => rfl, ?_, ?_⟩ <;> intro h <;> simp at h
        | exdev =>
          cases hsl : fmLookup fs pm.source with
          | none =>
            refine ⟨?_, ?_, ?_⟩ <;> intro h <;> simp at h
          | some len =>
            cases hcb : env.copyBytes with
            | none =>
              refine ⟨fun _ => hsl, ?_, ?_⟩ <;> intro h <;> simp at h
            | some bytes =>
              dsimp only
              by_cases hv : bytes ≠ len
              · rw [if_pos hv]
                refine ⟨fun _ => ?_, ?_, fun _ => ?_⟩
                · rw [fmLookup_erase_ne _ _ _ hsd,
                    fmLookup_insert_ne _ _ _ _ hsd]
                  exact hsl
                · intro h; simp at h
                · exact ⟨fmLookup_erase_self _ _, by simp⟩
              · rw [if_neg hv]
                push_neg at hv
                cases hrs : env.removeSourceOk with
                | true =>
                  refine ⟨?_, fun _ => ⟨len, rfl, by rw [hv]⟩, ?_⟩ <;>
                    intro h <;> simp at h
                | false =>
                  refine ⟨?_, fun _ => ⟨len, rfl, by rw [hv]⟩, ?_⟩ <;>
                    intro h <;> simp at h

/-- Witness for C2: a cross-device move whose copy reports 3 of 5
bytes fails verification with the source untouched and the incomplete
destination removed; with a full 5-byte copy the source is removed
only because the copied count equals the recorded size. -/
theorem move_error_source_preserved_witness :
    fmLookup
      (execute_move [(⟨true, ["s", "a.mp3"]⟩, 5)]
        ⟨⟨true, ["s", "a.mp3"]⟩, ⟨true, ["d", "a.mp3"]⟩, "d", "a.mp3"⟩
        ⟨true, .exdev, some 3, true⟩).fs
      (PlannedMove.mk ⟨true, ["s", "a.mp3"]⟩ ⟨true, ["d", "a.mp3"]⟩ "d"
        "a.mp3").source =
      fmLookup [(⟨true, ["s", "a.mp3"]⟩, 5)]
        (PlannedMove.mk ⟨true, ["s", "a.mp3"]⟩ ⟨true, ["d", "a.mp3"]⟩ "d"
          "a.mp3").source ∧
    (∃ len,
      fmLookup [(⟨true, ["s", "a.mp3"]⟩, 5)]
        (PlannedMove.mk ⟨true, ["s", "a.mp3"]⟩ ⟨true, ["d", "a.mp3"]⟩ "d"
          "a.mp3").source = some len ∧
      (MoveEnv.mk true .exdev (some 5) true).copyBytes = some len) ∧
    (fmLookup
      (execute_move [(⟨true, ["s", "a.mp3"]⟩, 5)]
        ⟨⟨true, ["s", "a.mp3"]⟩, ⟨true, ["d", "a.mp3"]⟩, "d", "a.mp3"⟩
        ⟨true, .exdev, some 3, true⟩).fs
      (PlannedMove.mk ⟨true, ["s", "a.mp3"]⟩ ⟨true, ["d", "a.mp3"]⟩ "d"
        "a.mp3").dest = none ∧
     Act.removeDestA ∈
      (execute_move [(⟨true, ["s", "a.mp3"]⟩, 5)]
        ⟨⟨true, ["s", "a.mp3"]⟩, ⟨true, ["d", "a.mp3"]⟩, "d", "a.mp3"⟩
        ⟨true, .exdev, some 3, true⟩).trace) :=
  ⟨(move_error_source_preserved [(⟨true, ["s", "a.mp3"]⟩, 5)]
      ⟨⟨true, ["s", "a.mp3"]⟩, ⟨true, ["d", "a.mp3"]⟩, "d", "a.mp3"⟩
      ⟨true, .exdev, some 3, true⟩).1 (Or.inr (Or.inr (Or.inr (by decide)))),
   (move_error_source_preserved [(⟨true, ["s", "a.mp3"]⟩, 5)]
      ⟨⟨true, ["s", "a.mp3"]⟩, ⟨true, ["d", "a.mp3"]⟩, "d", "a.mp3"⟩
      ⟨true, .exdev, some 5, true⟩).2.1 (by decide),
   (move_error_source_preserved [(⟨true, ["s", "a.mp3"]⟩, 5)]
      ⟨⟨true, ["s", "a.mp3"]⟩, ⟨true, ["d", "a.mp3"]⟩, "d", "a.mp3"⟩
      ⟨true, .exdev, some 3, true⟩).2.2 (by decide)⟩

/-- C3: the copy-verify-delete fallback is entered (its first step,
the source metadata read `statA`, is issued) if and only if the rename
was attempted and failed with the cross-device error; any other rename
failure is returned as an I/O error with no fallback step and an
unchanged filesystem; and when the destination exists at execution
time the call fails with the destination-appeared-after-planning error
without attempting a rename and without touching the filesystem. -/
theorem crossdevice_fallback_policy (fs : FileMap) (pm : PlannedMove)
    (env : MoveEnv) (hsd : pm.source ≠ pm.dest) (hmk : env.mkdirOk = true) :
    (Act.statA ∈ (execute_move fs pm env).trace ↔
      (fmExists fs pm.dest = false ∧ env.rename = .exdev)) ∧
    (fmExists fs pm.dest = false → env.rename = .otherErr →
      (execute_move fs pm env).res = .error .renameFailed ∧
      Act.statA ∉ (execute_move fs pm env).trace ∧
      Act.copyA ∉ (execute_move fs pm env).trace ∧
      (execute_move fs pm env).fs = fs) ∧
    (fmExists fs pm.dest = true →
      (execute_move fs pm env).res = .error .destExists ∧
      Act.renameA ∉ (execute_move fs pm env).trace ∧
      (execute_move fs pm env).fs = fs) := by
  unfold execute_move
  rw [if_neg hsd]
  cases hp : pm.dest.parent with
  | some par =>
    rw [hmk]
    rw [if_neg (by simp)]
    cases hex : fmExists fs pm.dest with
    | true =>
      rw [if_pos rfl]
      refine ⟨?_, ?_, ?_⟩
      · constructor
        · intro h; simp at h
        · rintro ⟨h1, _⟩; cases h1
      · intro h1; cases h1
      · intro _; exact ⟨rfl, by simp, rfl⟩
    | false =>
      rw [if_neg (by simp)]
      cases hr : env.rename with
      | ok =>
        refine ⟨?_, ?_, ?_⟩
        · constructor
          · intro h; simp at h
          · rintro ⟨_, h2⟩; cases h2
        · intro _ h2; cases h2
        · intro h1; cases h1
      | otherErr =>
        refine ⟨?_, ?_, ?_⟩
        · constructor
          · intro h; simp at h
          · rintro ⟨_, h2⟩; cases h2
        · intro _ _; exact ⟨rfl, by simp, by simp, rfl⟩
        · intro h1; cases h1
      | exdev =>
        refine ⟨?_, ?_, ?_⟩
        · constructor
          · intro _; exact ⟨rfl, rfl⟩
          · intro _
            cases hsl : fmLookup fs pm.source with
            | none => simp
            | some len =>
              cases hcb : env.copyBytes with
              | none => simp
              | some bytes =>
                dsimp only
                by_cases hv : bytes ≠ len
                · rw [if_pos hv]; simp
                · rw [if_neg hv]
                  cases env.removeSourceOk <;> simp
        · intro _ h2; cases h2
        · intro h1; cases h1
  | none =>
    rw [if_neg (by simp)]
    cases hex : fmExists fs pm.dest with
    | true =>
      rw [if_pos rfl]
      refine ⟨?_, ?_, ?_⟩
      · constructor
        · intro h; simp at h
        · rintro ⟨h1, _⟩; cases h1
      · intro h1; cases h1
      · intro _; exact ⟨rfl, by simp, rfl⟩
    | false =>
      rw [if_neg (by simp)]
      cases hr : env.rename with
      | ok =>
        refine ⟨?_, ?_, ?_⟩
        · constructor
          · intro h; simp at h
          · rintro ⟨_, h2⟩; cases h2
        · intro _ h2; cases h2
        · intro h1; cases h1
      | otherErr =>
        refine ⟨?_, ?_, ?_⟩
        · constructor
          · intro h; simp at h
          · rintro ⟨_, h2⟩; cases h2
        · intro _ _; exact ⟨rfl, by simp, by simp, rfl⟩
        · intro h1; cases h1
      | exdev =>
        refine ⟨?_, ?_, ?_⟩
        · constructor
          · intro _; exact ⟨rfl, rfl⟩
          · intro _
            cases hsl : fmLookup fs pm.source with
            | none => simp
            | some len =>
              cases hcb : env.copyBytes with
              | none => simp
              | some bytes =>
                dsimp only
                by_cases hv : bytes ≠ len
                · rw [if_pos hv]; simp
                · rw [if_neg hv]
                  cases env.removeSourceOk <;> simp
        · intro _ h2; cases h2
        · intro h1; cases h1

/-- Witness for C3 at concrete moves: a cross-device rename failure
enters the fallback, a plain rename failure is surfaced with no
fallback, and an occupied destination is refused without a rename. -/
theorem crossdevice_fallback_policy_witness :
    Act.statA ∈
      (execute_move []
        ⟨⟨true, ["s", "a.mp3"]⟩, ⟨true, ["d", "a.mp3"]⟩, "d", "a.mp3"⟩
        ⟨true, .exdev, some 5, true⟩).trace ∧
    ((execute_move []
        ⟨⟨true, ["s", "a.mp3"]⟩, ⟨true, ["d", "a.mp3"]⟩, "d", "a.mp3"⟩
        ⟨true, .otherErr, none, true⟩).res = .error .renameFailed ∧
      Act.statA ∉
        (execute_move []
          ⟨⟨true, ["s", "a.mp3"]⟩, ⟨true, ["d", "a.mp3"]⟩, "d", "a.mp3"⟩
          ⟨true, .otherErr, none, true⟩).trace ∧
      Act.copyA ∉
        (execute_move []
          ⟨⟨true, ["s", "a.mp3"]⟩, ⟨true, ["d", "a.mp3"]⟩, "d", "a.mp3"⟩
          ⟨true, .otherErr, none, true⟩).trace ∧
      (execute_move []
        ⟨⟨true, ["s", "a.mp3"]⟩, ⟨true, ["d", "a.mp3"]⟩, "d", "a.mp3"⟩
        ⟨true, .otherErr, none, true⟩).fs = []) ∧
    ((execute_move [(⟨true, ["d", "a.mp3"]⟩, 7)]
        ⟨⟨true, ["s", "a.mp3"]⟩, ⟨true, ["d", "a.mp3"]⟩, "d", "a.mp3"⟩
        ⟨true, .exdev, some 5, true⟩).res = .error .destExists ∧
      Act.renameA ∉
        (execute_move [(⟨true, ["d", "a.mp3"]⟩, 7)]
          ⟨⟨true, ["s", "a.mp3"]⟩, ⟨true, ["d", "a.mp3"]⟩, "d", "a.mp3"⟩
          ⟨true, .exdev, some 5, true⟩).trace ∧
      (execute_move [(⟨true, ["d", "a.mp3"]⟩, 7)]
        ⟨⟨true, ["s", "a.mp3"]⟩, ⟨true, ["d", "a.mp3"]⟩, "d", "a.mp3"⟩
        ⟨true, .exdev, some 5, true⟩).fs = [(⟨true, ["d", "a.mp3"]⟩, 7)]) :=
  ⟨(crossdevice_fallback_policy []
      ⟨⟨true, ["s", "a.mp3"]⟩, ⟨true, ["d", "a.mp3"]⟩, "d", "a.mp3"⟩
      ⟨true, .exdev, some 5, true⟩ (by decide) rfl).1.mpr ⟨rfl, rfl⟩,
   (crossdevice_fallback_policy []
      ⟨⟨true, ["s", "a.mp3"]⟩, ⟨true, ["d", "a.mp3"]⟩, "d", "a.mp3"⟩
      ⟨true, .otherErr, none, true⟩ (by decide) rfl).2.1 rfl rfl,
   (crossdevice_fallback_policy [(⟨true, ["d", "a.mp3"]⟩, 7)]
      ⟨⟨true, ["s", "a.mp3"]⟩, ⟨true, ["d", "a.mp3"]⟩, "d", "a.mp3"⟩
      ⟨true, .exdev, some 5, true⟩ (by decide) rfl).2.2 (by decide)⟩

/-! Claim theorems for the planner. -/

/-- C6: `compute_destination` keeps the source, builds the folder name
as sanitized artist, literal separator, sanitized album, builds the
file name from the optional zero-padded track number, the title
component (sanitized metadata title, else the source stem
unsanitized), and the extension (from the path's extension accessor
with the manual suffix-parsing fallback), and places the destination
under base, folder, file. -/
theorem compute_destination_spec (b src : FsPath) (meta : TrackMetadata) :
    (compute_destination b src meta).source = src ∧
    (compute_destination b src meta).folder_name =
      sanitize meta.artist ++ " - " ++ sanitize meta.album ∧
    (compute_destination b src meta).file_name =
      (match meta.track_number with
       | some n =>
         pad2 n ++ " - " ++
           (match meta.title with
            | some t => sanitize t
            | none => (src.fileStem).getD "Unknown") ++ "." ++
           ((src.extension).getD
             (match src.fileName with
              | some nm =>
                match rsplitOnceDotL nm.data with
                | some (_, e) => String.mk e
                | none => ""
              | none => ""))
       | none =>
         (match meta.title with
          | some t => sanitize t
          | none => (src.fileStem).getD "Unknown") ++ "." ++
           ((src.extension).getD
             (match src.fileName with
              | some nm =>
                match rsplitOnceDotL nm.data with
                | some (_, e) => String.mk e
                | none => ""
              | none => ""))) ∧
    (compute_destination b src meta).dest =
      (b.join (compute_destination b src meta).folder_name).join
        (compute_destination b src meta).file_name := by
  refine ⟨rfl, rfl, ?_, rfl⟩
  unfold compute_destination
  dsimp only
  cases src.extension <;> rfl

/-- No-dot final components split at no dot. -/
lemma rsplitOnceDotL_none :
    ∀ {cs : List Char}, '.' ∉ cs → rsplitOnceDotL cs = none := by
  intro cs
  induction cs with
  | nil => intro _; rfl
  | cons c cs ih =>
    intro h
    unfold rsplitOnceDotL
    rw [ih (fun hm => h (List.mem_cons_of_mem c hm))]
    rw [if_neg (fun hc => h (by rw [hc]; exact List.mem_cons_self _ _))]

/-- C10: when the source's final component has no dot, the computed
file name still ends with the dot separator followed by the empty
extension, and the destination's final component is that same
trailing-dot name. -/
theorem compute_destination_trailing_dot (b src : FsPath)
    (meta : TrackMetadata) (nm : String) (h1 : src.fileName = some nm)
    (h2 : '.' ∉ nm.data) :
    (compute_destination b src meta).file_name =
      (match meta.track_number with
       | some k =>
         pad2 k ++ " - " ++
           (match meta.title with
            | some t => sanitize t
            | none => nm) ++ "."
       | none =>
         (match meta.title with
          | some t => sanitize t
          | none => nm) ++ ".") ∧
    (compute_destination b src meta).dest.fileName =
      some (compute_destination b src meta).file_name := by
  have hr : rsplitOnceDotL nm.data = none := rsplitOnceDotL_none h2
  have hext : src.extension = none := by
    unfold FsPath.extension
    rw [h1]
    show nameExt nm = none
    unfold nameExt
    rw [hr]
  have hstem : src.fileStem = some nm := by
    unfold FsPath.fileStem
    rw [h1]
    show some (nameStem nm) = some nm
    unfold nameStem
    rw [hr]
  constructor
  · unfold compute_destination
    dsimp only
    rw [hext, h1, hstem]
    dsimp only
    rw [hr]
    cases meta.track_number <;> cases meta.title <;>
      simp [String.append_empty]
  · unfold compute_destination FsPath.join FsPath.fileName
    dsimp only
    rw [List.getLast?_concat]

/-- Witness for C10: a source named `song` with no extension yields
the trailing-dot file name `T.`. -/
theorem compute_destination_trailing_dot_witness :
    (compute_destination ⟨true, ["music"]⟩ ⟨true, ["dl", "song"]⟩
      ⟨"A", "B", some "T", none⟩).file_name = "T." ∧
    (compute_destination ⟨true, ["music"]⟩ ⟨true, ["dl", "song"]⟩
      ⟨"A", "B", some "T", none⟩).dest.fileName =
      some ((compute_destination ⟨true, ["music"]⟩ ⟨true, ["dl", "song"]⟩
        ⟨"A", "B", some "T", none⟩).file_name) :=
  have h := compute_destination_trailing_dot ⟨true, ["music"]⟩
    ⟨true, ["dl", "song"]⟩ ⟨"A", "B", some "T", none⟩ "song" rfl (by decide)
  ⟨h.1.trans (by decide), h.2⟩

/-! Machinery for the `sanitize` idempotence and safety claims.
`CleanChar` collects the character classes that survive the first
pass; `noTwoWs` is the no-adjacent-whitespace relation of the
collapsed normal form. -/

def CleanChar (c : Char) : Prop :=
  deletedChar c = false ∧ isControlChar c = false ∧ c ≠ '/' ∧ c ≠ '\\'

def noTwoWs (a b : Char) : Prop :=
  ¬(isRustWhitespace a = true ∧ isRustWhitespace b = true)

/-- Every character the first pass emits is clean (the dash
replacement is clean, and kept characters passed every filter). -/
lemma pass1_clean : ∀ (cs : List Char), ∀ c ∈ pass1 cs, CleanChar c := by
  intro cs
  induction cs with
  | nil => intro c hc; exact absurd hc (List.not_mem_nil c)
  | cons a cs ih =>
    intro c hc
    unfold pass1 at hc
    by_cases h1 : a = '/' ∨ a = '\\'
    · rw [if_pos h1] at hc
      rcases List.mem_cons.mp hc with rfl | hm
      · exact ⟨by decide, by decide, by decide, by decide⟩
      · exact ih c hm
    · rw [if_neg h1] at hc
      by_cases h2 : deletedChar a = true
      · rw [if_pos h2] at hc
        exact ih c hc
      · rw [if_neg h2] at hc
        by_cases h3 : isControlChar a = true
        · rw [if_pos h3] at hc
          exact ih c hc
        · rw [if_neg h3] at hc
          rcases List.mem_cons.mp hc with rfl | hm
          · push_neg at h1
            exact ⟨by simpa using h2, by simpa using h3, h1.1, h1.2⟩
          · exact ih c hm

/-- The first pass is the identity on strings of clean characters. -/
lemma pass1_id : ∀ (cs : List Char), (∀ c ∈ cs, CleanChar c) →
    pass1 cs = cs := by
  intro cs
  induction cs with
  | nil => intro _; rfl
  | cons a cs ih =>
    intro h
    have ha := h a (List.mem_cons_self a cs)
    unfold pass1
    rw [if_neg (fun hor => hor.elim (fun he => ha.2.2.1 he)
      (fun he => ha.2.2.2 he))]
    rw [if_neg (by simp [ha.1])]
    rw [if_neg (by simp [ha.2.1])]
    rw [ih (fun c hc => h c (List.mem_cons_of_mem a hc))]

/-- Words produced by the splitter are nonempty, whitespace-free, and
drawn from the pending word or the input. -/
lemma splitWsAux_words :
    ∀ (cs acc : List Char), (∀ c ∈ acc, isRustWhitespace c = false) →
      ∀ w ∈ splitWsAux cs acc,
        w ≠ [] ∧ ∀ c ∈ w, isRustWhitespace c = false ∧ (c ∈ acc ∨ c ∈ cs) := by
  intro cs
  induction cs with
  | nil =>
    intro acc hacc w hw
    unfold splitWsAux at hw
    by_cases ha : acc = []
    · rw [if_pos ha] at hw
      exact absurd hw (List.not_mem_nil w)
    · rw [if_neg ha] at hw
      rcases List.mem_singleton.mp hw with rfl
      exact ⟨ha, fun c hc => ⟨hacc c hc, Or.inl hc⟩⟩
  | cons a cs ih =>
    intro acc hacc w hw
    unfold splitWsAux at hw
    by_cases hws : isRustWhitespace a = true
    · rw [if_pos hws] at hw
      by_cases ha : acc = []
      · rw [if_pos ha] at hw
        have h := ih [] (fun c hc => absurd hc (List.not_mem_nil c)) w hw
        refine ⟨h.1, fun c hc => ⟨(h.2 c hc).1, Or.inr ?_⟩⟩
        rcases (h.2 c hc).2 with h2 | h2
        · exact absurd h2 (List.not_mem_nil c)
        · exact List.mem_cons_of_mem a h2
      · rw [if_neg ha] at hw
        rcases List.mem_cons.mp hw with rfl | hm
        · exact ⟨ha, fun c hc => ⟨hacc c hc, Or.inl hc⟩⟩
        · have h := ih [] (fun c hc => absurd hc (List.not_mem_nil c)) w hm
          refine ⟨h.1, fun c hc => ⟨(h.2 c hc).1, Or.inr ?_⟩⟩
          rcases (h.2 c hc).2 with h2 | h2
          · exact absurd h2 (List.not_mem_nil c)
          · exact List.mem_cons_of_mem a h2
    · rw [if_neg hws] at hw
      have hacc2 : ∀ c ∈ acc ++ [a], isRustWhitespace c = false := by
        intro c hc
        rcases List.mem_append.mp hc with h2 | h2
        · exact hacc c h2
        · rcases List.mem_singleton.mp h2 with rfl
          simpa using hws
      have h := ih (acc ++ [a]) hacc2 w hw
      refine ⟨h.1, fun c hc => ⟨(h.2 c hc).1, ?_⟩⟩
      rcases (h.2 c hc).2 with h2 | h2
      · rcases List.mem_append.mp h2 with h3 | h3
        · exact Or.inl h3
        · rcases List.mem_singleton.mp h3 with rfl
          exact Or.inr (List.mem_cons_self _ _)
      · exact Or.inr (List.mem_cons_of_mem a h2)

/-- Characters of the joined word list are spaces or word
characters. -/
lemma joinSpace_chars :
    ∀ (ws : List (List Char)), ∀ c ∈ joinSpace ws,
      c = ' ' ∨ ∃ w ∈ ws, c ∈ w := by
  intro ws
  induction ws with
  | nil => intro c hc; exact absurd hc (List.not_mem_nil c)
  | cons w ws ih =>
    intro c hc
    cases ws with
    | nil => exact Or.inr ⟨w, List.mem_cons_self _ _, hc⟩
    | cons u us =>
      have hc2 : c ∈ w ++ ' ' :: joinSpace (u :: us) := hc
      rcases List.mem_append.mp hc2 with h | h
      · exact Or.inr ⟨w, List.mem_cons_self _ _, h⟩
      · rcases List.mem_cons.mp h with rfl | h2
        · exact Or.inl rfl
        · rcases ih c h2 with h3 | ⟨w2, hw2, hcw2⟩
          · exact Or.inl h3
          · exact Or.inr ⟨w2, List.mem_cons_of_mem _ hw2, hcw2⟩

/-- Characters of the collapsed string are spaces or non-whitespace
characters of the input. -/
lemma collapse_chars (cs : List Char) :
    ∀ c ∈ collapse cs, c = ' ' ∨ (c ∈ cs ∧ isRustWhitespace c = false) := by
  intro c hc
  rcases joinSpace_chars _ c hc with h | ⟨w, hw, hcw⟩
  · exact Or.inl h
  · have h := splitWsAux_words cs []
      (fun d hd => absurd hd (List.not_mem_nil d)) w hw
    rcases (h.2 c hcw).2 with h2 | h2
    · exact absurd h2 (List.not_mem_nil c)
    · exact Or.inr ⟨h2, (h.2 c hcw).1⟩

lemma trimDS_subset (cs : List Char) : ∀ c ∈ trimDS cs, c ∈ cs := by
  intro c hc
  exact (List.dropWhile_suffix isTrimCh).subset
    (( List.rdropWhile_prefix isTrimCh _).subset hc)

/-- Characters of the cleaned string are clean, and its whitespace
characters are plain spaces. -/
lemma cleaned_chars (s : String) :
    ∀ c ∈ cleaned s, CleanChar c ∧ (isRustWhitespace c = true → c = ' ') := by
  intro c hc
  have hc2 : c ∈ collapse (pass1 s.data) := trimDS_subset _ c hc
  rcases collapse_chars _ c hc2 with rfl | ⟨hmem, hws⟩
  · exact ⟨⟨by decide, by decide, by decide, by decide⟩, fun _ => rfl⟩
  · exact ⟨pass1_clean _ c hmem, fun h => absurd h (by simp [hws])⟩

lemma chain'_of_nonws :
    ∀ (l : List Char), (∀ c ∈ l, isRustWhitespace c = false) →
      List.Chain' noTwoWs l := by
  intro l
  induction l with
  | nil => intro _; exact List.chain'_nil
  | cons a l ih =>
    intro h
    cases l with
    | nil => exact List.chain'_singleton a
    | cons b l2 =>
      rw [List.chain'_cons]
      refine ⟨?_, ih (fun c hc => h c (List.mem_cons_of_mem a hc))⟩
      intro h12
      have := h a (List.mem_cons_self a _)
      rw [this] at h12
      cases h12.1

lemma splitWsAux_ne_nil :
    ∀ (cs acc : List Char), acc ≠ [] → splitWsAux cs acc ≠ [] := by
  intro cs
  induction cs with
  | nil =>
    intro acc ha
    unfold splitWsAux
    rw [if_neg ha]
    simp
  | cons a cs ih =>
    intro acc ha
    unfold splitWsAux
    by_cases hws : isRustWhitespace a = true
    · rw [if_pos hws, if_neg ha]
      simp
    · rw [if_neg hws]
      exact ih (acc ++ [a]) (by simp)

lemma joinSpace_cons_ne (w : List Char) (ws : List (List Char))
    (h : ws ≠ []) : joinSpace (w :: ws) = w ++ ' ' :: joinSpace ws := by
  cases ws with
  | nil => exact absurd rfl h
  | cons u us => rfl

/-- The head of the joined word list is the head of its first word. -/
lemma joinSpace_head_nonws :
    ∀ (ws : List (List Char)),
      (∀ w ∈ ws, w ≠ [] ∧ ∀ c ∈ w, isRustWhitespace c = false) →
      ∀ d ∈ (joinSpace ws).head?, isRustWhitespace d = false := by
  intro ws h d hd
  cases ws with
  | nil => simp [joinSpace] at hd
  | cons w ws2 =>
    have hw := h w (List.mem_cons_self _ _)
    have hh : (joinSpace (w :: ws2)).head? = w.head? := by
      cases ws2 with
      | nil => rfl
      | cons u us =>
        show (w ++ ' ' :: joinSpace (u :: us)).head? = w.head?
        rw [List.head?_append]
        cases hwh : w.head? with
        | some x => rfl
        | none => exact absurd (List.head?_eq_none_iff.mp hwh) hw.1
    rw [hh] at hd
    exact hw.2 d (List.mem_of_mem_head? hd)

/-- The joined word list has no two adjacent whitespace characters
when the words are nonempty and whitespace-free. -/
lemma joinSpace_chain :
    ∀ (ws : List (List Char)),
      (∀ w ∈ ws, w ≠ [] ∧ ∀ c ∈ w, isRustWhitespace c = false) →
      List.Chain' noTwoWs (joinSpace ws) := by
  intro ws
  induction ws with
  | nil => intro _; exact List.chain'_nil
  | cons w ws ih =>
    intro h
    have hw := h w (List.mem_cons_self _ _)
    cases ws with
    | nil => exact chain'_of_nonws w hw.2
    | cons u us =>
      show List.Chain' noTwoWs (w ++ ' ' :: joinSpace (u :: us))
      have hrest : ∀ v ∈ u :: us, v ≠ [] ∧ ∀ c ∈ v, isRustWhitespace c = false :=
        fun v hv => h v (List.mem_cons_of_mem w hv)
      rw [List.chain'_append]
      refine ⟨chain'_of_nonws w hw.2, ?_, ?_⟩
      · cases hj : joinSpace (u :: us) with
        | nil => exact List.chain'_singleton _
        | cons d l2 =>
          rw [List.chain'_cons]
          constructor
          · intro h12
            have hd : isRustWhitespace d = false := by
              apply joinSpace_head_nonws (u :: us) hrest d
              rw [hj]
              rfl
            rw [hd] at h12
            cases h12.2
          · have := ih hrest
            rw [hj] at this
            exact this
      · intro x hx y hy
        have hy2 : y = ' ' := by
          have := (by simpa using hy : ' ' = y)
          exact this.symm
        intro h12
        have hxw : x ∈ w := by
          rcases List.mem_getLast?_eq_getLast hx with ⟨hne, rfl⟩
          exact List.getLast_mem hne
        have := hw.2 x hxw
        rw [this] at h12
        cases h12.1

/-- Splitting then joining is the identity on strings in collapsed
normal form (whitespace only as single interior spaces). -/
lemma splitWs_join_eq :
    ∀ (cs acc : List Char),
      (∀ c ∈ cs, isRustWhitespace c = true → c = ' ') →
      List.Chain' noTwoWs cs →
      (∀ c ∈ cs.getLast?, isRustWhitespace c = false) →
      (acc = [] → ∀ c ∈ cs.head?, isRustWhitespace c = false) →
      joinSpace (splitWsAux cs acc) = acc ++ cs := by
  intro cs
  induction cs with
  | nil =>
    intro acc _ _ _ _
    unfold splitWsAux
    by_cases ha : acc = []
    · rw [if_pos ha, ha]
      rfl
    · rw [if_neg ha]
      show joinSpace [acc] = acc ++ []
      rw [List.append_nil]
      rfl
  | cons a cs ih =>
    intro acc hsp hch hlast hhead
    unfold splitWsAux
    by_cases hws : isRustWhitespace a = true
    · rw [if_pos hws]
      have hsp2 : a = ' ' := hsp a (List.mem_cons_self _ _) hws
      have ha : acc ≠ [] := by
        intro h0
        have := hhead h0 a rfl
        rw [this] at hws
        cases hws
      rw [if_neg ha]
      cases cs with
      | nil =>
        have := hlast a rfl
        rw [this] at hws
        cases hws
      | cons b cs2 =>
        have hb : isRustWhitespace b = false := by
          have h2 := (List.chain'_cons.mp hch).1
          by_contra hbb
          rw [Bool.not_eq_false] at hbb
          exact h2 ⟨hws, hbb⟩
        have hrec := ih []
          (fun c hc h => hsp c (List.mem_cons_of_mem a hc) h)
          hch.tail
          (fun c hc => hlast c (List.mem_getLast?_cons hc))
          (fun _ c hc => by
            have : b = c := by simpa using hc
            rw [← this]
            exact hb)
        have hne : splitWsAux (b :: cs2) [] ≠ [] := by
          unfold splitWsAux
          rw [if_neg (by rw [hb]; simp)]
          exact splitWsAux_ne_nil cs2 [b] (by simp)
        rw [joinSpace_cons_ne _ _ hne, hrec, hsp2]
        simp
    · rw [if_neg hws]
      have hrec := ih (acc ++ [a])
        (fun c hc h => hsp c (List.mem_cons_of_mem a hc) h)
        hch.tail
        (fun c hc => hlast c (List.mem_getLast?_cons hc))
        (fun h0 => absurd h0 (by simp))
      rw [hrec]
      simp

/-- Collapse is the identity on collapsed normal forms. -/
lemma collapse_eq_self (cs : List Char)
    (hsp : ∀ c ∈ cs, isRustWhitespace c = true → c = ' ')
    (hch : List.Chain' noTwoWs cs)
    (hlast : ∀ c ∈ cs.getLast?, isRustWhitespace c = false)
    (hhead : ∀ c ∈ cs.head?, isRustWhitespace c = false) :
    collapse cs = cs := by
  unfold collapse splitWhitespaceL
  have h := splitWs_join_eq cs [] hsp hch hlast (fun _ => hhead)
  simpa using h

/-- The head of the trimmed string is not a trimmed character. -/
lemma trimDS_head_not (cs : List Char) :
    ∀ c ∈ (trimDS cs).head?, isTrimCh c = false := by
  intro c hc
  have hne : trimDS cs ≠ [] := by
    intro h0
    rw [h0] at hc
    simp at hc
  have hx : List.dropWhile isTrimCh cs ≠ [] := by
    intro h0
    have : trimDS cs = [] := by
      unfold trimDS
      rw [h0]
      rfl
    exact hne this
  have hpre := List.rdropWhile_prefix isTrimCh (List.dropWhile isTrimCh cs)
  obtain ⟨t2, ht⟩ := hpre
  have hhead : (List.dropWhile isTrimCh cs).head? = some c := by
    rw [← ht, List.head?_append]
    have : (trimDS cs).head? = some c := by simpa using hc
    unfold trimDS at this
    rw [this]
    rfl
  have h2 := List.head?_eq_head hx
  rw [hhead] at h2
  have h3 : c = (List.dropWhile isTrimCh cs).head hx := by
    injection h2
  rw [h3]
  exact List.head_dropWhile_not isTrimCh cs hx

/-- The last character of the trimmed string is not a trimmed
character. -/
lemma trimDS_last_not (cs : List Char) :
    ∀ c ∈ (trimDS cs).getLast?, isTrimCh c = false := by
  intro c hc
  have hne : trimDS cs ≠ [] := by
    intro h0
    rw [h0] at hc
    simp at hc
  have h1 := List.rdropWhile_last_not isTrimCh (List.dropWhile isTrimCh cs)
    hne
  have h2 := List.getLast?_eq_getLast_of_ne_nil hne
  have hc2 : (trimDS cs).getLast? = some c := by simpa using hc
  rw [hc2] at h2
  have h3 : c = (trimDS cs).getLast hne := by injection h2
  rw [h3]
  simpa using h1

/-- Trimming is the identity when both ends are already clear. -/
lemma trimDS_eq_self (cs : List Char)
    (hh : ∀ c ∈ cs.head?, isTrimCh c = false)
    (hl : ∀ c ∈ cs.getLast?, isTrimCh c = false) :
    trimDS cs = cs := by
  unfold trimDS
  have h1 : List.dropWhile isTrimCh cs = cs := by
    cases cs with
    | nil => rfl
    | cons a l =>
      have ha := hh a rfl
      rw [List.dropWhile_cons]
      rw [if_neg (by rw [ha]; simp)]
  rw [h1]
  rw [List.rdropWhile_eq_self_iff]
  intro hne
  have := hl (cs.getLast hne)
    (by rw [List.getLast?_eq_getLast_of_ne_nil hne]; rfl)
  simp [this]

/-- The cleaned string has no two adjacent whitespace characters. -/
lemma cleaned_chain (s : String) : List.Chain' noTwoWs (cleaned s) := by
  have hjoin : List.Chain' noTwoWs (collapse (pass1 s.data)) := by
    unfold collapse splitWhitespaceL
    apply joinSpace_chain
    intro w hw
    have h := splitWsAux_words (pass1 s.data) []
      (fun c hc => absurd hc (List.not_mem_nil c)) w hw
    exact ⟨h.1, fun c hc => (h.2 c hc).1⟩
  exact List.Chain'.prefix (hjoin.suffix (List.dropWhile_suffix _))
    ( List.rdropWhile_prefix _ _)

/-- The cleaning pipeline is a fixpoint on its own output: cleaning
the cleaned string changes nothing. -/
lemma cleaned_fixpoint (s : String) :
    cleaned (String.mk (cleaned s)) = cleaned s := by
  have hchars := cleaned_chars s
  have hpass : pass1 (cleaned s) = cleaned s :=
    pass1_id _ (fun c hc => (hchars c hc).1)
  have hallsp : ∀ c ∈ cleaned s, isRustWhitespace c = true → c = ' ' :=
    fun c hc => (hchars c hc).2
  have hhead : ∀ c ∈ (cleaned s).head?, isRustWhitespace c = false := by
    intro c hc
    have h1 : isTrimCh c = false := trimDS_head_not _ c hc
    have hcm : c ∈ cleaned s := List.mem_of_mem_head? hc
    by_contra hws
    rw [Bool.not_eq_false] at hws
    have := hallsp c hcm hws
    rw [this] at h1
    simp [isTrimCh] at h1
  have hlast : ∀ c ∈ (cleaned s).getLast?, isRustWhitespace c = false := by
    intro c hc
    have h1 : isTrimCh c = false := trimDS_last_not _ c hc
    have hcm : c ∈ cleaned s := by
      rcases List.mem_getLast?_eq_getLast hc with ⟨hne, rfl⟩
      exact List.getLast_mem hne
    by_contra hws
    rw [Bool.not_eq_false] at hws
    have := hallsp c hcm hws
    rw [this] at h1
    simp [isTrimCh] at h1
  show trimDS (collapse (pass1 (cleaned s))) = cleaned s
  rw [hpass]
  rw [collapse_eq_self _ hallsp (cleaned_chain s) hlast hhead]
  exact trimDS_eq_self _ (fun c hc => trimDS_head_not _ c hc)
    (fun c hc => trimDS_last_not _ c hc)

/-! Characters of strings that match a reserved device name
case-insensitively are ASCII letters or digits, hence untouched by
every stage of the pipeline. -/

def AlnumAscii (c : Char) : Prop :=
  (0x41 ≤ c.toNat ∧ c.toNat ≤ 0x5a) ∨ (0x61 ≤ c.toNat ∧ c.toNat ≤ 0x7a) ∨
  (0x31 ≤ c.toNat ∧ c.toNat ≤ 0x39)

def GoodLowNat (d : Char) : Prop :=
  (0x61 ≤ d.toNat ∧ d.toNat ≤ 0x7a) ∨ (0x31 ≤ d.toNat ∧ d.toNat ≤ 0x39)

instance (c : Char) : Decidable (AlnumAscii c) := by
  unfold AlnumAscii
  exact inferInstance

instance (d : Char) : Decidable (GoodLowNat d) := by
  unfold GoodLowNat
  exact inferInstance

lemma resChar_alnum (c d : Char) (h : asciiLower c = d) (hd : GoodLowNat d) :
    AlnumAscii c := by
  unfold asciiLower at h
  by_cases hup : (0x41 ≤ c.toNat && c.toNat ≤ 0x5a) = true
  · rw [if_pos hup] at h
    exact Or.inl (by simpa using hup)
  · rw [if_neg hup] at h
    rw [h]
    exact Or.inr hd

lemma alnum_clean (c : Char) (hAl : AlnumAscii c) :
    CleanChar c ∧ isRustWhitespace c = false ∧ isTrimCh c = false := by
  refine ⟨⟨?_, ?_, ?_, ?_⟩, ?_, ?_⟩
  · by_contra hdel
    rw [Bool.not_eq_false] at hdel
    have hm : c ∈ [':', '*', '?', '\"', '<', '>', '|'] := by
      simpa [deletedChar] using hdel
    fin_cases hm <;> revert hAl <;> decide
  · unfold isControlChar
    rw [Bool.or_eq_false_iff]
    constructor
    · rw [decide_eq_false_iff_not]
      rcases hAl with ⟨h1, h2⟩ | ⟨h1, h2⟩ | ⟨h1, h2⟩ <;> omega
    · rw [Bool.and_eq_false_iff]
      refine Or.inl ?_
      rw [decide_eq_false_iff_not]
      rcases hAl with ⟨h1, h2⟩ | ⟨h1, h2⟩ | ⟨h1, h2⟩ <;> omega
  · intro he
    subst he
    revert hAl
    decide
  · intro he
    subst he
    revert hAl
    decide
  · unfold isRustWhitespace
    rcases hAl with ⟨h1, h2⟩ | ⟨h1, h2⟩ | ⟨h1, h2⟩ <;>
      simp only [Bool.or_eq_false_iff, Bool.and_eq_false_iff,
        decide_eq_false_iff_not] <;>
      refine ⟨⟨⟨⟨⟨⟨⟨⟨⟨⟨⟨⟨⟨⟨by omega, by omega⟩, by omega⟩, by omega⟩,
        by omega⟩, by omega⟩, by omega⟩, by omega⟩, by omega⟩,
        Or.inl (by omega)⟩, by omega⟩, by omega⟩, by omega⟩, by omega⟩,
        by omega⟩
  · unfold isTrimCh
    rw [Bool.or_eq_false_iff]
    constructor <;> rw [decide_eq_false_iff_not] <;> intro he <;> subst he <;>
      revert hAl <;> decide

lemma reserved_good :
    ∀ r ∈ RESERVED_NAMES, ∀ e ∈ r.data, GoodLowNat (asciiLower e) := by
  decide

lemma reserved_chars (t : List Char)
    (h : isReserved (String.mk t) = true) : ∀ c ∈ t, AlnumAscii c := by
  intro c hc
  unfold isReserved at h
  rw [List.any_eq_true] at h
  obtain ⟨r, hr, heq⟩ := h
  unfold eqIgnoreAsciiCase at heq
  have hmap : r.data.map asciiLower = t.map asciiLower := by
    simpa using of_decide_eq_true heq
  have hmem : asciiLower c ∈ t.map asciiLower := List.mem_map.mpr ⟨c, hc, rfl⟩
  rw [← hmap] at hmem
  rcases List.mem_map.mp hmem with ⟨e, he, hee⟩
  exact resChar_alnum c (asciiLower e) hee.symm (reserved_good r hr e he)

/-- The cleaning pipeline leaves an underscore-prefixed reserved name
unchanged. -/
lemma cleaned_underscore (t : List Char)
    (hres : isReserved (String.mk t) = true) :
    cleaned (String.mk ('_' :: t)) = '_' :: t := by
  have halnum := reserved_chars t hres
  have hall : ∀ c ∈ '_' :: t,
      CleanChar c ∧ isRustWhitespace c = false ∧ isTrimCh c = false := by
    intro c hc
    rcases List.mem_cons.mp hc with rfl | hm
    · exact ⟨⟨by decide, by decide, by decide, by decide⟩, by decide,
        by decide⟩
    · exact alnum_clean c (halnum c hm)
  show trimDS (collapse (pass1 ('_' :: t))) = '_' :: t
  rw [pass1_id _ (fun c hc => (hall c hc).1)]
  rw [collapse_eq_self _
    (fun c hc h => absurd h (by simp [(hall c hc).2.1]))
    (chain'_of_nonws _ (fun c hc => (hall c hc).2.1))
    (fun c hc => (hall c (by
      rcases List.mem_getLast?_eq_getLast hc with ⟨hne, rfl⟩
      exact List.getLast_mem hne)).2.1)
    (fun c hc => (hall c (List.mem_of_mem_head? hc)).2.1)]
  exact trimDS_eq_self _
    (fun c hc => (hall c (List.mem_of_mem_head? hc)).2.2)
    (fun c hc => (hall c (by
      rcases List.mem_getLast?_eq_getLast hc with ⟨hne, rfl⟩
      exact List.getLast_mem hne)).2.2)

/-- No underscore-prefixed string matches a reserved name: every
reserved name starts with a letter. -/
lemma underscore_not_reserved (t : List Char) :
    isReserved (String.mk ('_' :: t)) = false := by
  by_contra h
  rw [Bool.not_eq_false] at h
  unfold isReserved at h
  rw [List.any_eq_true] at h
  obtain ⟨r, hr, heq⟩ := h
  unfold eqIgnoreAsciiCase at heq
  have hmap : r.data.map asciiLower = ('_' :: t).map asciiLower := by
    simpa using of_decide_eq_true heq
  have hhead := congrArg List.head? hmap
  rw [List.map_cons] at hhead
  have h2 : (r.data.map asciiLower).head? = some '_' := by
    rw [hhead]
    show some (asciiLower '_') = some '_'
    decide
  have h4 : ∀ r2 ∈ RESERVED_NAMES, (r2.data.map asciiLower).head? ≠ some '_' :=
    by decide
  exact h4 r hr h2

/-! Claim theorems for the sanitizer. -/

/-- C4: `sanitize` is idempotent. -/
theorem sanitize_idempotent (x : String) :
    sanitize (sanitize x) = sanitize x := by
  by_cases ht : cleaned x = []
  · have hx : sanitize x = "Unknown" := by
      unfold sanitize
      dsimp only
      rw [if_pos ht]
    rw [hx]
    decide
  · by_cases hres : isReserved (String.mk (cleaned x)) = true
    · have hx : sanitize x = String.mk ('_' :: cleaned x) := by
        unfold sanitize
        dsimp only
        rw [if_neg ht, if_pos hres]
      rw [hx]
      unfold sanitize
      dsimp only
      rw [cleaned_underscore _ hres]
      rw [if_neg (by simp)]
      rw [if_neg (by rw [underscore_not_reserved]; simp)]
    · have hx : sanitize x = String.mk (cleaned x) := by
        unfold sanitize
        dsimp only
        rw [if_neg ht, if_neg hres]
      rw [hx]
      unfold sanitize
      dsimp only
      rw [cleaned_fixpoint x]
      rw [if_neg ht, if_neg hres]

/-- C5: the sanitized string contains none of the forbidden
characters and no control characters, is never empty (the literal
`"Unknown"` replaces an empty cleaned result), and carries the
underscore prefix exactly when the cleaned result case-insensitively
equals a reserved device name. -/
theorem sanitize_safety (s : String) :
    (∀ c ∈ (sanitize s).data,
      deletedChar c = false ∧ isControlChar c = false ∧ c ≠ '/' ∧
        c ≠ '\\') ∧
    sanitize s ≠ "" ∧
    (cleaned s = [] → sanitize s = "Unknown") ∧
    (isReserved (String.mk (cleaned s)) = true ↔
      (sanitize s).data = '_' :: cleaned s) := by
  by_cases ht : cleaned s = []
  · have hx : sanitize s = "Unknown" := by
      unfold sanitize
      dsimp only
      rw [if_pos ht]
    refine ⟨?_, ?_, fun _ => hx, ?_, ?_⟩
    · rw [hx]
      decide
    · rw [hx]
      decide
    · intro hr
      rw [ht] at hr
      exact absurd hr (by decide)
    · intro hd
      rw [hx, ht] at hd
      exact absurd hd (by decide)
  · by_cases hres : isReserved (String.mk (cleaned s)) = true
    · have hx : sanitize s = String.mk ('_' :: cleaned s) := by
        unfold sanitize
        dsimp only
        rw [if_neg ht, if_pos hres]
      refine ⟨?_, ?_, fun h0 => absurd h0 ht, fun _ => by rw [hx],
        fun _ => hres⟩
      · rw [hx]
        intro c hc
        rcases List.mem_cons.mp (by simpa using hc) with rfl | hm
        · exact ⟨by decide, by decide, by decide, by decide⟩
        · exact (cleaned_chars s c hm).1
      · rw [hx]
        intro h0
        have h1 := congrArg String.data h0
        simp at h1
    · have hx : sanitize s = String.mk (cleaned s) := by
        unfold sanitize
        dsimp only
        rw [if_neg ht, if_neg hres]
      refine ⟨?_, ?_, fun h0 => absurd h0 ht, ?_, ?_⟩
      · rw [hx]
        intro c hc
        exact (cleaned_chars s c (by simpa using hc)).1
      · rw [hx]
        intro h0
        exact ht (by simpa using congrArg String.data h0)
      · intro hr
        exact absurd hr hres
      · intro hd
        rw [hx] at hd
        have h1 := congrArg List.length hd
        simp at h1

/-- Witness for C5: the empty cleaned result becomes `"Unknown"`, and
the reserved name `CON` receives the underscore prefix. -/
theorem sanitize_safety_witness :
    sanitize "***" = "Unknown" ∧
    (sanitize "CON").data = '_' :: cleaned "CON" :=
  ⟨(sanitize_safety "***").2.2.1 (by decide),
   (sanitize_safety "CON").2.2.2.mp (by decide)⟩

end Tagmv
